import Mathlib

/-!
Shallow embedding of the SHENJI workflow execution-lifecycle engine
(WorkflowValidator, ExecutionHistory, ExecutionMonitor, AdvancedFeatures)
and proofs about the claims of its specification.

JavaScript `Map` objects are modelled as association lists with
insert-or-replace semantics, JS `Set`s as lists with membership tests,
JS numbers that only ever hold integers as `Int`/`Nat`, JS division as
rational division (`ℚ`), and `Date.now()` as an explicit `now : Int`
parameter.  Optional / possibly-`undefined` fields are `Option`s, and
opaque `any` state snapshots are modelled as a small JSON value type so
that JS truthiness (`x || {}`) can be expressed faithfully.
-/

/-- JSON-like values, standing in for TypeScript `any` payloads (checkpoint
states, node inputs/outputs, trigger data).  Arrays and objects are spelled
out cons-style so that equality is derivable; `jobjNil` is the empty object
`\x7b\x7d`. -/
inductive JVal where
  | jnull
  | jbool (b : Bool)
  | jnum (n : Int)
  | jstr (s : String)
  | jarrNil
  | jarrCons (head : JVal) (tail : JVal)
  | jobjNil
  | jobjCons (key : String) (val : JVal) (rest : JVal)
deriving DecidableEq, Repr

/-- JS truthiness of a JSON value: `null`, `false`, `0` and `""` are falsy;
arrays and objects (even empty ones) are truthy. -/
def JVal.jsTruthy : JVal → Bool
  | .jnull => false
  | .jbool b => b
  | .jnum n => !(n == 0)
  | .jstr s => !(s == "")
  | .jarrNil => true
  | .jarrCons _ _ => true
  | .jobjNil => true
  | .jobjCons _ _ _ => true

/-- Association-list lookup, modelling `Map.prototype.get`. -/
def lookupA {α : Type} (m : List (String × α)) (k : String) : Option α :=
  (m.find? (fun p => p.1 == k)).map (·.2)

/-- Association-list insert-or-replace, modelling `Map.prototype.set`
(existing keys keep their position, new keys are appended). -/
def setA {α : Type} (m : List (String × α)) (k : String) (v : α) : List (String × α) :=
  match m with
  | [] => [(k, v)]
  | p :: rest => if p.1 == k then (k, v) :: rest else p :: setA rest k v

/- ===================== Workflow definition (graph) ===================== -/

/-- `WorkflowNode.position` — modelled only as present/absent, since the
validator merely checks that both coordinates are numbers. -/
structure NodePosition where
  x : Int
  y : Int
deriving DecidableEq, Repr

/-- A named-input mapping of a node (`{ from, output }`). -/
structure InputMapping where
  from_ : String
  output : String
deriving DecidableEq, Repr

structure WorkflowNode where
  id : String
  type : String
  position : Option NodePosition
  config : Option JVal
  inputs : Option (List (String × InputMapping))
deriving DecidableEq, Repr

structure WorkflowEdge where
  id : String
  source : String
  sourceOutput : String
  target : String
  targetInput : String
  enabled : Option Bool
deriving DecidableEq, Repr

structure RetryPolicy where
  maxRetries : Int
deriving DecidableEq, Repr

structure WorkflowSettings where
  maxConcurrency : Option Int
  timeout : Option Int
  retryPolicy : Option RetryPolicy
deriving DecidableEq, Repr

structure WorkflowVersion where
  version : String
deriving DecidableEq, Repr

structure WorkflowDefinition where
  id : String
  name : String
  version : Option WorkflowVersion
  nodes : List WorkflowNode
  edges : List WorkflowEdge
  settings : Option WorkflowSettings
deriving DecidableEq, Repr

structure ValidationError where
  code : String
  message : String
  nodeId : Option String
  edgeId : Option String
  field : Option String
deriving DecidableEq, Repr

structure ValidationWarning where
  code : String
  message : String
  nodeId : Option String
  suggestion : Option String
deriving DecidableEq, Repr

structure WorkflowStats where
  totalNodes : Nat
  totalEdges : Nat
  startNodes : Nat
  endNodes : Nat
  maxDepth : Nat
  estimatedExecutionTime : Option Nat
deriving DecidableEq, Repr

structure WorkflowValidationResult where
  valid : Bool
  errors : List ValidationError
  warnings : List ValidationWarning
  stats : WorkflowStats
deriving DecidableEq, Repr

/-- Helper to build an error with optional slots, mirroring the
`ValidationError` constructor call sites. -/
def mkVErr (code message : String) (nodeId edgeId field : Option String) : ValidationError :=
  ⟨code, message, nodeId, edgeId, field⟩

def mkVWarn (code message : String) (nodeId suggestion : Option String) : ValidationWarning :=
  ⟨code, message, nodeId, suggestion⟩

/- ===================== WorkflowValidator ===================== -/

/-- Character class `[a-zA-Z0-9.-]` of the semver regex. -/
def isSemverIdentChar (c : Char) : Bool :=
  c.isAlphanum || c == '.' || c == '-'

/-- `isValidVersion`: the semver regex
`^\d+\.\d+\.\d+(-[a-zA-Z0-9.-]+)?(\+[a-zA-Z0-9.-]+)?$` as a deterministic
parser (the character classes exclude `.` after digits and `+` in the
pre-release part, so greedy scanning is equivalent to the regex). -/
def isValidVersion (v : String) : Bool :=
  let cs := v.data
  let (d1, r1) := cs.span Char.isDigit
  if d1.isEmpty then false else
  match r1 with
  | '.' :: r2 =>
    let (d2, r3) := r2.span Char.isDigit
    if d2.isEmpty then false else
    match r3 with
    | '.' :: r4 =>
      let (d3, r5) := r4.span Char.isDigit
      if d3.isEmpty then false else
      let (ok1, r6) :=
        match r5 with
        | '-' :: r6a =>
          let (p, r6b) := r6a.span isSemverIdentChar
          (!p.isEmpty, r6b)
        | _ => (true, r5)
      if !ok1 then false else
      let (ok2, r7) :=
        match r6 with
        | '+' :: r7a =>
          let (b, r7b) := r7a.span isSemverIdentChar
          (!b.isEmpty, r7b)
        | _ => (true, r6)
      ok2 && r7.isEmpty
    | _ => false
  | _ => false

/-- `String.prototype.trim`, spelled out over the character list. -/
def jsTrim (s : String) : String :=
  ⟨((s.data.dropWhile Char.isWhitespace).reverse.dropWhile Char.isWhitespace).reverse⟩

/-- `validateSchema`.  The `nodes`/`edges` "must be an array" checks cannot
fire in the typed embedding (both fields are always lists) and are omitted. -/
def validateSchema (w : WorkflowDefinition) :
    List ValidationError × List ValidationWarning :=
  let e1 := if w.id == "" then
    [mkVErr "MISSING_FIELD" "Workflow ID is required" none none (some "id")] else []
  let e2 := if w.name == "" || jsTrim w.name == "" then
    [mkVErr "MISSING_FIELD" "Workflow name is required" none none (some "name")] else []
  let e3 :=
    match w.version with
    | none => [mkVErr "MISSING_FIELD" "Workflow version is required" none none (some "version")]
    | some ver =>
      if ver.version == "" then
        [mkVErr "MISSING_FIELD" "Workflow version is required" none none (some "version")]
      else []
  let w1 :=
    match w.version with
    | some ver =>
      if ver.version != "" && !isValidVersion ver.version then
        let vs := ver.version
        [mkVWarn "INVALID_VERSION_FORMAT"
          s!"Version \"{vs}\" does not follow semantic versioning"
          none (some "Use semantic versioning format (e.g., 1.0.0)")] else []
    | none => []
  (e1 ++ e2 ++ e3, w1)

/-- Is a `config` value accepted by `typeof node.config === 'object'`
after the falsiness test?  (`null`, booleans, numbers and strings are
rejected; arrays and objects pass.) -/
def JVal.isObjectLike : JVal → Bool
  | .jarrNil => true
  | .jarrCons _ _ => true
  | .jobjNil => true
  | .jobjCons _ _ _ => true
  | _ => false

/-- Warnings for one node's incomplete input mappings. -/
def inputMappingWarnings (node : WorkflowNode) : List ValidationWarning :=
  match node.inputs with
  | none => []
  | some entries =>
    entries.foldr (fun (entry : String × InputMapping) acc =>
      (if entry.2.from_ == "" || entry.2.output == "" then
        let nid := node.id
        let nm := entry.1
        [mkVWarn "INCOMPLETE_INPUT_MAPPING"
          s!"Node {nid} input \"{nm}\" has incomplete mapping"
          (some node.id) (some "Complete the input mapping")] else []) ++ acc) []

/-- `validateNodes` body: iterates over the nodes threading the set of node
ids already seen.  `node.type` missing short-circuits the rest of the loop
body (the `continue` in the source). -/
def validateNodesGo (registry : List String) :
    List WorkflowNode → List String → List ValidationError × List ValidationWarning
  | [], _ => ([], [])
  | node :: rest, seen =>
    let nid := node.id
    let dupE := if seen.contains node.id then
      [mkVErr "DUPLICATE_NODE_ID" s!"Duplicate node ID: {nid}" (some node.id) none none]
      else []
    let seen' := node.id :: seen
    let idE := if node.id == "" then
      [mkVErr "MISSING_FIELD" "Node ID is required" (some node.id) none (some "id")] else []
    if node.type == "" then
      let typeE := [mkVErr "MISSING_FIELD" "Node type is required" (some node.id) none (some "type")]
      let (es, ws) := validateNodesGo registry rest seen'
      (dupE ++ idE ++ typeE ++ es, ws)
    else
      let unkE := if registry.length > 0 && !(registry.contains node.type) then
        let nt := node.type
        [mkVErr "UNKNOWN_NODE_TYPE" s!"Unknown node type: {nt}" (some node.id) none none]
        else []
      let posW := if node.position.isNone then
        [mkVWarn "INVALID_POSITION" s!"Node {nid} has invalid position"
          (some node.id) (some "Provide valid x and y coordinates")] else []
      let cfgW := if (match node.config with
          | none => true
          | some c => !c.isObjectLike) then
        [mkVWarn "MISSING_CONFIG" s!"Node {nid} has no configuration"
          (some node.id) (some "Add node configuration")] else []
      let inW := inputMappingWarnings node
      let (es, ws) := validateNodesGo registry rest seen'
      (dupE ++ idE ++ unkE ++ es, posW ++ cfgW ++ inW ++ ws)

def validateNodes (registry : List String) (nodes : List WorkflowNode) :
    List ValidationError × List ValidationWarning :=
  validateNodesGo registry nodes []

/-- `validateEdges` body, threading the set of edge ids already seen.
`allEdges` is the full edge list (used by the duplicate-connection scan). -/
def validateEdgesGo (allEdges : List WorkflowEdge) (nodes : List WorkflowNode) :
    List WorkflowEdge → List String → List ValidationError × List ValidationWarning
  | [], _ => ([], [])
  | edge :: rest, seen =>
    let eid := edge.id
    let dupE := if seen.contains edge.id then
      [mkVErr "DUPLICATE_EDGE_ID" s!"Duplicate edge ID: {eid}" none (some edge.id) none]
      else []
    let seen' := edge.id :: seen
    if edge.source == "" then
      let (es, ws) := validateEdgesGo allEdges nodes rest seen'
      (dupE ++ [mkVErr "MISSING_FIELD" "Edge source is required" none (some edge.id) (some "source")] ++ es, ws)
    else if edge.target == "" then
      let (es, ws) := validateEdgesGo allEdges nodes rest seen'
      (dupE ++ [mkVErr "MISSING_FIELD" "Edge target is required" none (some edge.id) (some "target")] ++ es, ws)
    else
      let src := edge.source
      let tgt := edge.target
      let srcE := if !(nodes.any (fun n => n.id == edge.source)) then
        [mkVErr "INVALID_SOURCE_NODE" s!"Source node \"{src}\" does not exist"
          (some edge.source) (some edge.id) none] else []
      let tgtE := if !(nodes.any (fun n => n.id == edge.target)) then
        [mkVErr "INVALID_TARGET_NODE" s!"Target node \"{tgt}\" does not exist"
          (some edge.target) (some edge.id) none] else []
      let selfE := if edge.source == edge.target then
        [mkVErr "SELF_LOOP" s!"Edge {eid} creates a self-loop on node {src}"
          (some edge.source) (some edge.id) none] else []
      let soW := if edge.sourceOutput == "" then
        [mkVWarn "MISSING_SOURCE_OUTPUT" s!"Edge {eid} missing source output name"
          (some edge.source) none] else []
      let tiW := if edge.targetInput == "" then
        [mkVWarn "MISSING_TARGET_INPUT" s!"Edge {eid} missing target input name"
          (some edge.target) none] else []
      let dupW :=
        match allEdges.find? (fun e2 =>
          e2.id != edge.id && e2.source == edge.source &&
          e2.sourceOutput == edge.sourceOutput && e2.target == edge.target &&
          e2.targetInput == edge.targetInput) with
        | some d =>
          let did := d.id
          [mkVWarn "DUPLICATE_CONNECTION" s!"Edge {eid} is duplicate of edge {did}"
            none (some "Remove duplicate connection")]
        | none => []
      let (es, ws) := validateEdgesGo allEdges nodes rest seen'
      (dupE ++ srcE ++ tgtE ++ selfE ++ es, soW ++ tiW ++ dupW ++ ws)

def validateEdges (edges : List WorkflowEdge) (nodes : List WorkflowNode) :
    List ValidationError × List ValidationWarning :=
  validateEdgesGo edges nodes edges []

/- ------------------- cycle detection ------------------- -/

/-- The adjacency structure built by `detectCycles`/`calculateMaxDepth`:
a `Map<string, string[]>`. -/
abbrev Adjacency := List (String × List String)

/-- Neighbour lookup `adjacency.get(u) || []`. -/
def nb (adj : Adjacency) (u : String) : List String :=
  (lookupA adj u).getD []

/-- Building the adjacency map: every node id is first bound to `[]`, then
every edge with `enabled !== false` appends its target to its source's
neighbour list (creating the entry if the source was absent). -/
def buildAdjacency (nodes : List WorkflowNode) (edges : List WorkflowEdge) : Adjacency :=
  let init := nodes.foldl (fun m n => setA m n.id []) []
  edges.foldl (fun m e =>
    if e.enabled != some false then setA m e.source (nb m e.source ++ [e.target]) else m) init

/-- State of the cycle-detecting DFS: the `visited` set and the list of
cycles found (in discovery order). -/
structure DfsSt where
  visited : List String
  cycles : List (List String)
deriving DecidableEq, Repr

/-- The cycle recorded when `neighbor ∈ recursionStack`:
`path.slice(path.indexOf(neighbor))` with `neighbor` appended to close it. -/
def pathCycle (path : List String) (neighbor : String) : List String :=
  path.drop (path.indexOf neighbor) ++ [neighbor]

/-- The neighbour loop of the cycle-detecting DFS, parametrised by the
recursive call (`rec`).  `path'` is the current path including the node
being expanded; it coincides with the recursion-stack set. -/
def goCycle (rec : String → List String → DfsSt → DfsSt) (path' : List String) :
    List String → DfsSt → DfsSt
  | [], s => s
  | n :: ns, s =>
    if n ∈ s.visited then
      if n ∈ path' then
        goCycle rec path' ns { s with cycles := s.cycles ++ [pathCycle path' n] }
      else goCycle rec path' ns s
    else goCycle rec path' ns (rec n path' s)

/-- The recursive DFS of `detectCycles`, with explicit fuel standing in for
the call stack (the fuel passed by `detectCycles` always suffices, see the
fuel lemmas below). -/
def dfsCycle (adj : Adjacency) : Nat → String → List String → DfsSt → DfsSt
  | 0, _, _, s => s
  | fuel + 1, u, path, s =>
    let path' := path ++ [u]
    goCycle (dfsCycle adj fuel) path' (nb adj u) { s with visited := u :: s.visited }

/-- Fuel bound used for both DFS traversals: strictly more than the number
of distinct ids that can ever be visited. -/
def fuelBound (nodes : List WorkflowNode) (edges : List WorkflowEdge) : Nat :=
  nodes.length + edges.length + 1

/-- `detectCycles`: DFS from every not-yet-visited node, in node order. -/
def detectCycles (nodes : List WorkflowNode) (edges : List WorkflowEdge) :
    List (List String) :=
  let adj := buildAdjacency nodes edges
  (nodes.foldl
    (fun s n => if n.id ∈ s.visited then s else dfsCycle adj (fuelBound nodes edges) n.id [] s)
    ⟨[], []⟩).cycles

/-- `validateTopology`. -/
def validateTopology (w : WorkflowDefinition) :
    List ValidationError × List ValidationWarning :=
  if w.nodes.isEmpty then
    ([], [mkVWarn "EMPTY_WORKFLOW" "Workflow has no nodes" none (some "Add at least one node")])
  else
    let cycles := detectCycles w.nodes w.edges
    let cycE := cycles.map (fun cycle =>
      let j := String.intercalate " -> " cycle
      mkVErr "CIRCULAR_DEPENDENCY" s!"Circular dependency detected: {j}" cycle.head? none none)
    let isoW := (w.nodes.filter (fun n =>
        !(w.edges.any (fun e => e.target == n.id)) &&
        !(w.edges.any (fun e => e.source == n.id)))).map (fun n =>
      let nid := n.id
      mkVWarn "ISOLATED_NODE" s!"Node {nid} is isolated (no inputs or outputs)"
        (some n.id) (some "Connect the node or remove it"))
    let startNodes := w.nodes.filter (fun n => !(w.edges.any (fun e => e.target == n.id)))
    let startW := if startNodes.length == 0 && w.nodes.length > 0 then
      [mkVWarn "NO_START_NODE" "Workflow has no start node (all nodes have inputs)"
        none (some "Add a node without inputs as the starting point")] else []
    let endNodes := w.nodes.filter (fun n => !(w.edges.any (fun e => e.source == n.id)))
    let endW := if endNodes.length == 0 && w.nodes.length > 0 then
      [mkVWarn "NO_END_NODE" "Workflow has no end node (all nodes have outputs)"
        none (some "Add a node without outputs as the end point")] else []
    (cycE, isoW ++ startW ++ endW)

/-- `validateSettings`. -/
def validateSettings (w : WorkflowDefinition) :
    List ValidationError × List ValidationWarning :=
  match w.settings with
  | none => ([], [])
  | some st =>
    let mcE := match st.maxConcurrency with
      | some m => if m < 1 then
          [mkVErr "INVALID_SETTING" "maxConcurrency must be at least 1"
            none none (some "settings.maxConcurrency")] else []
      | none => []
    let mcW := match st.maxConcurrency with
      | some m => if m > 100 then
          [mkVWarn "HIGH_CONCURRENCY" s!"maxConcurrency ({m}) is very high"
            none (some "Consider reducing to avoid resource exhaustion")] else []
      | none => []
    let toW := match st.timeout with
      | some t => if t < 1000 then
          [mkVWarn "LOW_TIMEOUT" s!"Timeout ({t}ms) is very low"
            none (some "Consider increasing timeout to avoid premature termination")] else []
      | none => []
    let rpE := match st.retryPolicy with
      | some rp => if rp.maxRetries < 0 then
          [mkVErr "INVALID_SETTING" "maxRetries cannot be negative"
            none none (some "settings.retryPolicy.maxRetries")] else []
      | none => []
    let rpW := match st.retryPolicy with
      | some rp => if rp.maxRetries > 10 then
          let mr := rp.maxRetries
          [mkVWarn "HIGH_RETRY_COUNT" s!"maxRetries ({mr}) is very high"
            none (some "Consider reducing retry count")] else []
      | none => []
    (mcE ++ rpE, mcW ++ toW ++ rpW)

/- ------------------- max-depth computation ------------------- -/

/-- State of the memoised depth DFS: the memo table and the `visiting` set
(the current recursion chain, most recent first). -/
structure DepthSt where
  memo : List (String × Nat)
  visiting : List String
deriving DecidableEq, Repr

/-- The neighbour loop of the depth DFS (`maxChildDepth` accumulation),
parametrised by the recursive call. -/
def goDepth (rec : String → DepthSt → Nat × DepthSt) :
    List String → Nat → DepthSt → Nat × DepthSt
  | [], m, s => (m, s)
  | n :: ns, m, s =>
    let (d, s') := rec n s
    goDepth rec ns (max m d) s'

/-- The memoised DFS of `calculateMaxDepth`. -/
def dfsDepth (adj : Adjacency) : Nat → String → DepthSt → Nat × DepthSt
  | 0, _, s => (0, s)
  | fuel + 1, u, s =>
    match lookupA s.memo u with
    | some d => (d, s)
    | none =>
      if u ∈ s.visiting then (0, s)
      else
        let s1 : DepthSt := { s with visiting := u :: s.visiting }
        let ns := nb adj u
        if ns.isEmpty then
          (1, { memo := setA s1.memo u 1, visiting := s1.visiting.erase u })
        else
          let (m, s2) := goDepth (dfsDepth adj fuel) ns 0 s1
          let d := 1 + m
          (d, { memo := setA s2.memo u d, visiting := s2.visiting.erase u })

/-- `calculateMaxDepth`: 0 on an empty graph, 0 when a cycle was detected,
otherwise the maximum of the memoised DFS over all nodes (nodes already
memoised are skipped). -/
def calculateMaxDepth (w : WorkflowDefinition) : Nat :=
  if w.nodes.isEmpty then 0
  else if !(detectCycles w.nodes w.edges).isEmpty then 0
  else
    let adj := buildAdjacency w.nodes w.edges
    (w.nodes.foldl
      (fun (acc : Nat × DepthSt) n =>
        if (lookupA acc.2.memo n.id).isSome then acc
        else
          let (d, s') := dfsDepth adj (fuelBound w.nodes w.edges) n.id acc.2
          (max acc.1 d, s'))
      (0, ⟨[], []⟩)).1

/-- `calculateStats`. -/
def calculateStats (w : WorkflowDefinition) : WorkflowStats :=
  let startNodes := (w.nodes.filter (fun n => !(w.edges.any (fun e => e.target == n.id)))).length
  let endNodes := (w.nodes.filter (fun n => !(w.edges.any (fun e => e.source == n.id)))).length
  { totalNodes := w.nodes.length
    totalEdges := w.edges.length
    startNodes := startNodes
    endNodes := endNodes
    maxDepth := calculateMaxDepth w
    estimatedExecutionTime := none }

/-- `WorkflowValidator.validate`: all five validation passes in source
order, then the stats; `valid` iff no errors were pushed. -/
def validateRun (registry : List String) (w : WorkflowDefinition) :
    WorkflowValidationResult :=
  let (e1, w1) := validateSchema w
  let (e2, w2) := validateNodes registry w.nodes
  let (e3, w3) := validateEdges w.edges w.nodes
  let (e4, w4) := validateTopology w
  let (e5, w5) := validateSettings w
  let errors := e1 ++ e2 ++ e3 ++ e4 ++ e5
  let warnings := w1 ++ w2 ++ w3 ++ w4 ++ w5
  { valid := errors.isEmpty
    errors := errors
    warnings := warnings
    stats := calculateStats w }

/-- Exported `validateWorkflow(workflow, nodeRegistry?)`: a fresh validator,
whose registry is empty unless one is supplied. -/
def validateWorkflow (w : WorkflowDefinition) (registry : Option (List String)) :
    WorkflowValidationResult :=
  validateRun (registry.getD []) w

/- ===================== ExecutionHistory ===================== -/

inductive ExecutionStatus where
  | pending | running | completed | failed | cancelled | paused
deriving DecidableEq, Repr

inductive NodeExecutionStatus where
  | pending | running | completed | failed | skipped
deriving DecidableEq, Repr

structure NodeErrorInfo where
  message : String
  stack : Option String
  code : Option String
deriving DecidableEq, Repr

structure NodeExecutionRecord where
  nodeId : String
  nodeName : String
  nodeType : String
  status : NodeExecutionStatus
  startTime : Int
  endTime : Option Int
  duration : Option Int
  inputs : Option JVal
  outputs : Option JVal
  error : Option NodeErrorInfo
  retryCount : Option Nat
  logs : Option (List String)
deriving DecidableEq, Repr

inductive TriggerType where
  | manual | schedule | event | api
deriving DecidableEq, Repr

structure ExecutionTrigger where
  type : TriggerType
  userId : Option String
  userName : Option String
  data : Option JVal
deriving DecidableEq, Repr

structure ExecutionStatsRec where
  totalNodes : Nat
  completedNodes : Nat
  failedNodes : Nat
  skippedNodes : Nat
  successRate : Option ℚ
deriving DecidableEq, Repr

structure ExecutionErrorInfo where
  message : String
  stack : Option String
  failedNodeId : Option String
  failedNodeName : Option String
deriving DecidableEq, Repr

structure Checkpoint where
  nodeId : String
  timestamp : Int
  state : JVal
deriving DecidableEq, Repr

structure WorkflowExecutionRecord where
  id : String
  workflowId : String
  workflowName : String
  workflowVersion : Option String
  status : ExecutionStatus
  startTime : Int
  endTime : Option Int
  duration : Option Int
  trigger : ExecutionTrigger
  context : JVal
  nodes : List NodeExecutionRecord
  stats : ExecutionStatsRec
  error : Option ExecutionErrorInfo
  checkpoints : Option (List Checkpoint)
  createdAt : Int
  updatedAt : Int
deriving DecidableEq, Repr

/-- The `save` side effect on the record itself: `updatedAt = Date.now()`. -/
def saveStamp (r : WorkflowExecutionRecord) (now : Int) : WorkflowExecutionRecord :=
  { r with updatedAt := now }

/-- `createExecution`: fresh PENDING record; `suffix` stands in for the
random id suffix. -/
def createExecution (workflow : WorkflowDefinition) (trigger : ExecutionTrigger)
    (context : Option JVal) (now : Int) (suffix : String) : WorkflowExecutionRecord :=
  let wid := workflow.id
  let nowS := toString now
  saveStamp
    { id := s!"exec_{wid}_{nowS}_{suffix}"
      workflowId := workflow.id
      workflowName := workflow.name
      workflowVersion := workflow.version.map (·.version)
      status := .pending
      startTime := now
      endTime := none
      duration := none
      trigger := trigger
      context := context.getD .jobjNil
      nodes := []
      stats := ⟨workflow.nodes.length, 0, 0, 0, none⟩
      error := none
      checkpoints := none
      createdAt := now
      updatedAt := now } now

/-- `updateStatus` on a record that was found (the not-found branch throws
in the source and is handled by the caller). -/
def updateStatus (record : WorkflowExecutionRecord) (status : ExecutionStatus)
    (error : Option ExecutionErrorInfo) (now : Int) : WorkflowExecutionRecord :=
  let r1 := { record with status := status }
  let r2 := if status = ExecutionStatus.running ∧ r1.startTime = 0 then
    { r1 with startTime := now } else r1
  let r3 := if status = ExecutionStatus.completed ∨ status = ExecutionStatus.failed ∨
      status = ExecutionStatus.cancelled then
    { r2 with endTime := some now, duration := some (now - r2.startTime) } else r2
  let r4 : WorkflowExecutionRecord :=
    match error with
    | some e => { r3 with error := some e }
    | none => r3
  let r5 := if r4.stats.totalNodes > 0 then
    { r4 with stats := { r4.stats with
        successRate := some ((r4.stats.completedNodes : ℚ) / (r4.stats.totalNodes : ℚ)) } }
    else r4
  saveStamp r5 now

/-- `Array.prototype.findIndex` by a string key: index of the first element
whose key equals `k` (`none` standing in for `-1`). -/
def findIdxStr {α : Type} (key : α → String) : List α → String → Option Nat
  | [], _ => none
  | x :: rest, k => if key x == k then some 0 else (findIdxStr key rest k).map (· + 1)

/-- The upsert of `addNodeExecution`: replace the record at the first index
with the same node id, else append. -/
def upsertNode (nodes : List NodeExecutionRecord) (nr : NodeExecutionRecord) :
    List NodeExecutionRecord :=
  match findIdxStr (fun n => n.nodeId) nodes nr.nodeId with
  | some i => nodes.set i nr
  | none => nodes ++ [nr]

/-- `addNodeExecution` on a record that was found: upsert, then recompute
the completed/failed/skipped counts from the full node list. -/
def addNodeExecution (record : WorkflowExecutionRecord) (nr : NodeExecutionRecord)
    (now : Int) : WorkflowExecutionRecord :=
  let nodes' := upsertNode record.nodes nr
  saveStamp
    { record with
      nodes := nodes'
      stats := { record.stats with
        completedNodes := (nodes'.filter (fun n => n.status == NodeExecutionStatus.completed)).length
        failedNodes := (nodes'.filter (fun n => n.status == NodeExecutionStatus.failed)).length
        skippedNodes := (nodes'.filter (fun n => n.status == NodeExecutionStatus.skipped)).length } }
    now

/-- `addCheckpoint` on a record that was found. -/
def addCheckpoint (record : WorkflowExecutionRecord) (nodeId : String) (state : JVal)
    (now : Int) : WorkflowExecutionRecord :=
  saveStamp { record with checkpoints := some (record.checkpoints.getD [] ++ [⟨nodeId, now, state⟩]) } now

/- ===================== AdvancedFeatures ===================== -/

structure RollbackResult where
  success : Bool
  rolledBackTo : String
  affectedNodes : List String
  message : String
  error : Option String
deriving DecidableEq, Repr

/-- `RollbackManager.rollback`.  `record` is the result of the
`executionHistory.get` lookup (`none` = not found).  Returns the record
state after the operation (saved when the rollback went through) together
with the `RollbackResult`.  The per-node compensation hook of the source
only logs and sleeps, so it never throws. -/
def rollback (record : Option WorkflowExecutionRecord) (targetNodeId : String)
    (now : Int) : Option WorkflowExecutionRecord × RollbackResult :=
  match record with
  | none =>
    (none, ⟨false, targetNodeId, [], "Execution record not found", some "EXECUTION_NOT_FOUND"⟩)
  | some record =>
    match (record.checkpoints.getD []).find? (fun c => c.nodeId == targetNodeId) with
    | none =>
      (some record, ⟨false, targetNodeId, [], "Checkpoint not found", some "CHECKPOINT_NOT_FOUND"⟩)
    | some _ =>
      match findIdxStr (fun n => n.nodeId) record.nodes targetNodeId with
      | none =>
        (some record, ⟨false, targetNodeId, [], "Target node not found", some "NODE_NOT_FOUND"⟩)
      | some k =>
        let nodesToRollback := record.nodes.drop (k + 1)
        let affectedNodeIds := nodesToRollback.map (·.nodeId)
        let truncated := record.nodes.take (k + 1)
        let count := nodesToRollback.length
        let nodes' :=
          match truncated.get? k with
          | some nd =>
            truncated.set k
              { nd with logs := some (nd.logs.getD [] ++
                  [s!"Rolled back from {count} subsequent nodes"]) }
          | none => truncated
        let record' := saveStamp { record with nodes := nodes', status := .paused } now
        let tn := targetNodeId
        (some record',
          ⟨true, targetNodeId, affectedNodeIds,
            s!"Successfully rolled back to node: {tn}", none⟩)

structure ResumeContext where
  executionId : String
  checkpointNodeId : String
  resumeFromNode : String
  skippedNodes : List String
  preservedState : JVal
deriving DecidableEq, Repr

/-- `ResumeManager.getResumeContext` on the record returned by the store
lookup (`none` = not found). -/
def getResumeContext (record : Option WorkflowExecutionRecord) : Option ResumeContext :=
  match record with
  | none => none
  | some record =>
    match record.nodes.reverse.find? (fun n => n.status == NodeExecutionStatus.completed) with
    | none =>
      some ⟨record.id, "", ((record.nodes.head?).map (·.nodeId)).getD "", [], .jobjNil⟩
    | some lastCompleted =>
      let lastCheckpoint :=
        (record.checkpoints.getD []).find? (fun c => c.nodeId == lastCompleted.nodeId)
      let nextNode :=
        match findIdxStr (fun n => n.nodeId) record.nodes lastCompleted.nodeId with
        | some lastNodeIndex => record.nodes.get? (lastNodeIndex + 1)
        | none => record.nodes.get? 0

      let completedNodeIds :=
        (record.nodes.filter (fun n => n.status == NodeExecutionStatus.completed)).map (·.nodeId)
      some ⟨record.id, lastCompleted.nodeId, ((nextNode.map (·.nodeId))).getD "",
        completedNodeIds,
        match lastCheckpoint with
        | some c => if c.state.jsTruthy then c.state else .jobjNil
        | none => .jobjNil⟩

inductive BackoffStrategy where
  | linear | exponential | fixed
deriving DecidableEq, Repr

structure RetryConfig where
  maxAttempts : Nat
  backoffStrategy : BackoffStrategy
  initialDelay : Nat
  maxDelay : Nat
  retryableErrors : Option (List String)
deriving DecidableEq, Repr

/-- `RetryManager.calculateDelay(attempt, config)`: the delay slept after a
failure of attempt number `attempt` (so before attempt `attempt + 1`). -/
def calculateDelay (attempt : Nat) (config : RetryConfig) : Nat :=
  let delay :=
    match config.backoffStrategy with
    | .linear => config.initialDelay * attempt
    | .exponential => config.initialDelay * 2 ^ (attempt - 1)
    | .fixed => config.initialDelay
  min delay config.maxDelay

/- ===================== ExecutionMonitor ===================== -/

structure ExecutionLogEntry where
  executionId : String
  nodeId : Option String
  timestamp : Int
  level : String
  message : String
deriving DecidableEq, Repr

/-- One entry of the monitor's `activeExecutions` map. -/
structure MonitoredExecution where
  record : WorkflowExecutionRecord
  startTime : Int
  lastUpdate : Int
  nodeStatuses : List (String × NodeExecutionStatus)
  logs : List ExecutionLogEntry
deriving DecidableEq, Repr

structure ExecutionProgress where
  executionId : String
  totalNodes : Nat
  completedNodes : Nat
  failedNodes : Nat
  runningNodes : Nat
  pendingNodes : Int
  progress : ℚ
  estimatedTimeRemaining : Option ℚ
deriving DecidableEq, Repr

/-- `ExecutionMonitor.getProgress` on the `activeExecutions` entry for
`executionId` (`none` = not monitored). -/
def getProgress (ex : Option MonitoredExecution) (executionId : String) (now : Int) :
    Option ExecutionProgress :=
  match ex with
  | none => none
  | some ex =>
    let statuses := ex.nodeStatuses.map (·.2)
    let totalNodes := ex.record.stats.totalNodes
    let completedNodes := (statuses.filter (· == NodeExecutionStatus.completed)).length
    let failedNodes := (statuses.filter (· == NodeExecutionStatus.failed)).length
    let runningNodes := (statuses.filter (· == NodeExecutionStatus.running)).length
    let pendingNodes : Int :=
      (totalNodes : Int) - completedNodes - failedNodes - runningNodes
    let progress : ℚ := if totalNodes > 0 then (completedNodes : ℚ) / (totalNodes : ℚ) else 0
    let estimatedTimeRemaining : Option ℚ :=
      if 0 < completedNodes ∧ progress < 1 then
        let elapsed : ℚ := ((now - ex.startTime : Int) : ℚ)
        let avgTimePerNode := elapsed / (completedNodes : ℚ)
        let remainingNodes : ℚ := (totalNodes : ℚ) - (completedNodes : ℚ)
        some (avgTimePerNode * remainingNodes)
      else none
    some ⟨executionId, totalNodes, completedNodes, failedNodes, runningNodes,
      pendingNodes, progress, estimatedTimeRemaining⟩

/- ===================== Spec-side graph predicates ===================== -/

/-- An edge participates in the traversal adjacency iff `enabled !== false`. -/
def enabledEdge (e : WorkflowEdge) : Bool :=
  e.enabled != some false

/-- One directed step along an enabled edge of the graph. -/
def stepB (edges : List WorkflowEdge) (a b : String) : Bool :=
  edges.any (fun e => enabledEdge e && e.source == a && e.target == b)

/-- Consecutive elements are enabled-edge steps. -/
def chainB (edges : List WorkflowEdge) : List String → Bool
  | [] => true
  | [_] => true
  | a :: b :: rest => stepB edges a b && chainB edges (b :: rest)

/-- All listed ids are ids of nodes of the graph. -/
def memNodes (nodes : List WorkflowNode) (l : List String) : Bool :=
  l.all (fun v => nodes.any (fun n => n.id == v))

/-- A directed cycle among the graph's nodes along enabled edges: a
nonempty vertex list forming a chain whose last vertex steps back to the
first. -/
def isCycleB (nodes : List WorkflowNode) (edges : List WorkflowEdge)
    (c : List String) : Bool :=
  match c with
  | [] => false
  | x :: xs =>
    chainB edges (x :: xs) && stepB edges (((x :: xs).getLast?).getD x) x &&
      memNodes nodes (x :: xs)

/-- A directed chain among the graph's nodes along enabled edges. -/
def isChainB (nodes : List WorkflowNode) (edges : List WorkflowEdge)
    (l : List String) : Bool :=
  !l.isEmpty && chainB edges l && memNodes nodes l

/-- Step relation of an adjacency map. -/
def Step (adj : Adjacency) (a b : String) : Prop :=
  b ∈ nb adj a

/-- A closed cycle of the adjacency relation. -/
def ClosedCycleP (adj : Adjacency) : List String → Prop
  | [] => False
  | x :: xs =>
    List.Chain' (Step adj) (x :: xs) ∧ Step adj ((x :: xs).getLast (by simp)) x

/-- Shape of a cycle as recorded by the DFS (last element repeats the
first); dropping the final element yields a closed cycle. -/
def RecordedCycleOK (adj : Adjacency) (P : String → Prop) (c : List String) : Prop :=
  ClosedCycleP adj c.dropLast ∧ ∀ v ∈ c, P v

/- ===================== Ghost DFS (proof artefact) ===================== -/

/-- Ghost state for the cycle DFS: like `DfsSt` but additionally tracking
the list of nodes whose DFS call has returned, in finishing order. -/
structure GSt where
  visited : List String
  cycles : List (List String)
  finished : List String
deriving DecidableEq, Repr

def GSt.toPlain (s : GSt) : DfsSt :=
  ⟨s.visited, s.cycles⟩

/-- Ghost neighbour loop, mirroring `goCycle`. -/
def goCycleG (rec : String → List String → GSt → GSt) (path' : List String) :
    List String → GSt → GSt
  | [], s => s
  | n :: ns, s =>
    if n ∈ s.visited then
      if n ∈ path' then
        goCycleG rec path' ns { s with cycles := s.cycles ++ [pathCycle path' n] }
      else goCycleG rec path' ns s
    else goCycleG rec path' ns (rec n path' s)

/-- Ghost DFS, mirroring `dfsCycle` and additionally appending the node to
`finished` when its call returns. -/
def dfsCycleG (adj : Adjacency) : Nat → String → List String → GSt → GSt
  | 0, _, _, s => s
  | fuel + 1, u, path, s =>
    let path' := path ++ [u]
    let s2 := goCycleG (dfsCycleG adj fuel) path' (nb adj u)
      { s with visited := u :: s.visited }
    { s2 with finished := s2.finished ++ [u] }

/-- Ghost run of `detectCycles`. -/
def detectCyclesG (nodes : List WorkflowNode) (edges : List WorkflowEdge) : GSt :=
  let adj := buildAdjacency nodes edges
  nodes.foldl
    (fun s n => if n.id ∈ s.visited then s else dfsCycleG adj (fuelBound nodes edges) n.id [] s)
    ⟨[], [], []⟩

/-- `f` lists vertices so that every adjacency step out of a listed vertex
lands strictly earlier in the list: a reverse topological order witness. -/
inductive TopoOK (adj : Adjacency) : List String → Prop
  | nil : TopoOK adj []
  | snoc {f : List String} {u : String} :
      TopoOK adj f → (∀ w, Step adj u w → w ∈ f) → TopoOK adj (f ++ [u])

/-- Structural invariant of the ghost DFS relating `visited`, `finished`
and the current recursion stack `gray`. -/
structure GrayInv (s : GSt) (gray : List String) : Prop where
  mem_visited : ∀ v, v ∈ s.visited ↔ (v ∈ s.finished ∨ v ∈ gray)
  nodup_finished : s.finished.Nodup
  gray_not_finished : ∀ v ∈ gray, v ∉ s.finished

/-- Ids that the cycle DFS can ever visit: node ids and targets of edges. -/
def univIds (nodes : List WorkflowNode) (edges : List WorkflowEdge) : Finset String :=
  (nodes.map (·.id) ++ edges.map (·.target)).toFinset

/-- Correctness of one memo entry of the depth DFS: `d` is the length of a
longest enabled-edge chain of graph nodes starting at `u`. -/
def GoodVal (nodes : List WorkflowNode) (edges : List WorkflowEdge)
    (u : String) (d : Nat) : Prop :=
  (∃ l, isChainB nodes edges l = true ∧ l.head? = some u ∧ l.length = d) ∧
  (∀ l, isChainB nodes edges l = true → l.head? = some u → l.length ≤ d)

/-- One ghost state extends another: visited grows at the front, cycles and
finished grow at the back. -/
def GExtends (s s' : GSt) : Prop :=
  (∃ t, s'.visited = t ++ s.visited) ∧ (∃ t, s'.cycles = s.cycles ++ t) ∧
  (∃ t, s'.finished = s.finished ++ t)

/-- `TopoCond`: as long as no cycle has been recorded, the finished list is
a reverse topological order witness. -/
def TopoCond (adj : Adjacency) (s : GSt) : Prop :=
  s.cycles = [] → TopoOK adj s.finished

/-- Every recorded cycle is a genuine closed cycle (soundness), with all
its vertices satisfying `P`. -/
def CycOK (adj : Adjacency) (P : String → Prop) (s : GSt) : Prop :=
  ∀ c ∈ s.cycles, RecordedCycleOK adj P c

/-- Invariant bundle carried through the ghost DFS; `gray` is the current
recursion stack (the `path` of the innermost active call, as a set). -/
structure DfsPre (adj : Adjacency) (P : String → Prop) (s : GSt) (gray : List String) : Prop where
  grayInv : GrayInv s gray
  topo : TopoCond adj s
  cyc : CycOK adj P s

/-- Memo-table extension: every entry of `m` survives in `m'`. -/
def MemoExt (m m' : List (String × Nat)) : Prop :=
  ∀ k d, lookupA m k = some d → lookupA m' k = some d

/-- Every memo entry is a correct longest-chain length. -/
def MemoOK (nodes : List WorkflowNode) (edges : List WorkflowEdge)
    (m : List (String × Nat)) : Prop :=
  ∀ k d, lookupA m k = some d → GoodVal nodes edges k d

/- ===================== Concrete sample data ===================== -/

def sampleNode (i : String) : WorkflowNode :=
  ⟨i, "task", some ⟨0, 0⟩, some .jobjNil, none⟩

def sampleEdge (i s t : String) : WorkflowEdge :=
  ⟨i, s, "out", t, "in", none⟩

def sampleEdgeOff (i s t : String) : WorkflowEdge :=
  ⟨i, s, "out", t, "in", some false⟩

/-- Linear chain A → B → C. -/
def chainWorkflow : WorkflowDefinition :=
  ⟨"w1", "wf", some ⟨"1.0.0"⟩, [sampleNode "A", sampleNode "B", sampleNode "C"],
   [sampleEdge "e1" "A" "B", sampleEdge "e2" "B" "C"], none⟩

/-- Cycle A → B → C → A. -/
def cycleWorkflow : WorkflowDefinition :=
  ⟨"w2", "wf", some ⟨"1.0.0"⟩, [sampleNode "A", sampleNode "B", sampleNode "C"],
   [sampleEdge "e1" "A" "B", sampleEdge "e2" "B" "C", sampleEdge "e3" "C" "A"], none⟩

/-- Two parallel 2-hop paths S → L → T and S → R → T. -/
def diamondWorkflow : WorkflowDefinition :=
  ⟨"w3", "wf", some ⟨"1.0.0"⟩, [sampleNode "S", sampleNode "L", sampleNode "R", sampleNode "T"],
   [sampleEdge "e1" "S" "L", sampleEdge "e2" "S" "R",
    sampleEdge "e3" "L" "T", sampleEdge "e4" "R" "T"], none⟩

/-- A → B enabled, B → A disabled: the cycle requires a disabled edge. -/
def disabledCycleWorkflow : WorkflowDefinition :=
  ⟨"w4", "wf", some ⟨"1.0.0"⟩, [sampleNode "A", sampleNode "B"],
   [sampleEdge "e1" "A" "B", sampleEdgeOff "e2" "B" "A"], none⟩

/-- One-node workflow used by the execution-record examples. -/
def oneNodeWorkflow : WorkflowDefinition :=
  ⟨"w5", "wf", some ⟨"1.0.0"⟩, [sampleNode "X"], [], none⟩

def sampleTrigger : ExecutionTrigger :=
  ⟨.manual, none, none, none⟩

def sampleNodeRec (i : String) (st : NodeExecutionStatus) : NodeExecutionRecord :=
  ⟨i, i, "task", st, 0, none, none, none, none, none, none, none⟩

/-- The rollback scenario of the spec: nodes `[A: COMPLETED, B: COMPLETED,
C: FAILED]` with a checkpoint at A. -/
def rollbackRecord : WorkflowExecutionRecord :=
  ⟨"e1", "w1", "wf", none, .running, 50, none, none, sampleTrigger, .jobjNil,
   [sampleNodeRec "A" .completed, sampleNodeRec "B" .completed, sampleNodeRec "C" .failed],
   ⟨3, 2, 1, 0, none⟩, none, some [⟨"A", 10, .jobjNil⟩], 0, 0⟩

/-- The resume scenario of the spec: nodes `[A: COMPLETED, B: FAILED]`,
one checkpoint at A with state `\x7b\x7d`. -/
def resumeRecord : WorkflowExecutionRecord :=
  ⟨"e2", "w1", "wf", none, .failed, 50, none, none, sampleTrigger, .jobjNil,
   [sampleNodeRec "A" .completed, sampleNodeRec "B" .failed],
   ⟨2, 1, 1, 0, none⟩, none, some [⟨"A", 10, .jobjNil⟩], 0, 0⟩

/-- Like `resumeRecord` but the checkpoint state is `null` (falsy). -/
def nullStateRecord : WorkflowExecutionRecord :=
  { resumeRecord with checkpoints := some [⟨"A", 10, .jnull⟩] }

/-- A record as created for `oneNodeWorkflow` (so `totalNodes = 1`). -/
def oneNodeRecord : WorkflowExecutionRecord :=
  createExecution oneNodeWorkflow sampleTrigger none 0 "s"

/-- `oneNodeRecord` after recording node executions for two different node
ids, the second of which does not belong to the workflow. -/
def overflowRecord : WorkflowExecutionRecord :=
  addNodeExecution (addNodeExecution oneNodeRecord (sampleNodeRec "X" .completed) 1)
    (sampleNodeRec "Y" .completed) 2

/-- The progress scenario of the spec: 10 total nodes, 6 completed,
1 failed, 1 running, 2 pending. -/
def progressExec : MonitoredExecution :=
  ⟨{ oneNodeRecord with stats := ⟨10, 0, 0, 0, none⟩ }, 0, 0,
   [("n1", .completed), ("n2", .completed), ("n3", .completed), ("n4", .completed),
    ("n5", .completed), ("n6", .completed), ("n7", .failed), ("n8", .running),
    ("n9", .pending), ("n10", .pending)], []⟩

/-- A monitored execution whose single node has completed (progress = 1). -/
def doneExec : MonitoredExecution :=
  ⟨{ oneNodeRecord with stats := ⟨1, 0, 0, 0, none⟩ }, 0, 0, [("n1", .completed)], []⟩

/-- Statistics locals of `getProgress`, named for the theorems below. -/
def completedCount (ex : MonitoredExecution) : Nat :=
  ((ex.nodeStatuses.map (·.2)).filter (· == NodeExecutionStatus.completed)).length

def failedCount (ex : MonitoredExecution) : Nat :=
  ((ex.nodeStatuses.map (·.2)).filter (· == NodeExecutionStatus.failed)).length

def runningCount (ex : MonitoredExecution) : Nat :=
  ((ex.nodeStatuses.map (·.2)).filter (· == NodeExecutionStatus.running)).length

/- ===================== Theorems ===================== -/

/- ------- shared list lemmas ------- -/

theorem statusCounts_le (l : List NodeExecutionRecord) :
    (l.filter (fun n => n.status == NodeExecutionStatus.completed)).length +
    (l.filter (fun n => n.status == NodeExecutionStatus.failed)).length +
    (l.filter (fun n => n.status == NodeExecutionStatus.skipped)).length ≤ l.length := by
  induction l with
  | nil => simp
  | cons a t ih =>
    cases h : a.status <;> simp [List.filter_cons, h] <;> omega

/- ------- C5 ------- -/

/-- C5: for every retry configuration and attempt `n ≥ 1`, the delay slept
before attempt `n + 1` (`calculateDelay n`) is `min(maxDelay, initialDelay·n)`
for the linear strategy, `min(maxDelay, initialDelay·2^(n−1))` for the
exponential strategy and `min(maxDelay, initialDelay)` for the fixed
strategy; with exponential backoff, `initialDelay = 1000` and
`maxDelay = 10000`, the delays before attempts 2, 3, 5 and 6 are 1000,
2000, 8000 and 10000. -/
theorem C5_retry_delay_formula (n : Nat) (cfg : RetryConfig) (h : 1 ≤ n) :
    (cfg.backoffStrategy = BackoffStrategy.linear →
      calculateDelay n cfg = min cfg.maxDelay (cfg.initialDelay * n)) ∧
    (cfg.backoffStrategy = BackoffStrategy.exponential →
      calculateDelay n cfg = min cfg.maxDelay (cfg.initialDelay * 2 ^ (n - 1))) ∧
    (cfg.backoffStrategy = BackoffStrategy.fixed →
      calculateDelay n cfg = min cfg.maxDelay cfg.initialDelay) ∧
    (calculateDelay 1 ⟨3, .exponential, 1000, 10000, none⟩ = 1000 ∧
     calculateDelay 2 ⟨3, .exponential, 1000, 10000, none⟩ = 2000 ∧
     calculateDelay 4 ⟨3, .exponential, 1000, 10000, none⟩ = 8000 ∧
     calculateDelay 5 ⟨3, .exponential, 1000, 10000, none⟩ = 10000) := by
  refine ⟨?_, ?_, ?_, by decide⟩ <;> intro hs <;>
    simp [calculateDelay, hs, Nat.min_comm]

theorem C5_witness :
    1 ≤ 2 ∧
    ((⟨3, .exponential, 1000, 10000, none⟩ : RetryConfig).backoffStrategy =
        BackoffStrategy.exponential →
      calculateDelay 2 ⟨3, .exponential, 1000, 10000, none⟩ =
        min 10000 (1000 * 2 ^ (2 - 1))) :=
  ⟨by decide, (C5_retry_delay_formula 2 ⟨3, .exponential, 1000, 10000, none⟩ (by decide)).2.1⟩

/- ------- C6 ------- -/

/-- C6 counterexample: a second `updateStatus` call with a terminal status
overwrites the end time that the first terminal call stamped, so the end
time and duration are not set exactly once. -/
theorem C6_counterexample :
    (updateStatus rollbackRecord ExecutionStatus.completed none 100).endTime = some 100 ∧
    (updateStatus (updateStatus rollbackRecord ExecutionStatus.completed none 100)
      ExecutionStatus.failed none 200).endTime = some 200 ∧
    (some (200 : Int) : Option Int) ≠ some 100 := by
  refine ⟨by decide, by decide, by decide⟩

/-- C6 amended: `updateStatus` stamps the end time and duration on every
call whose target status is terminal (COMPLETED/FAILED/CANCELLED) — also
when they were already set, overwriting them — and leaves both unchanged on
every non-terminal call. -/
theorem C6_terminal_stamps (r : WorkflowExecutionRecord) (st : ExecutionStatus)
    (e : Option ExecutionErrorInfo) (now : Int) :
    ((st = ExecutionStatus.completed ∨ st = ExecutionStatus.failed ∨
        st = ExecutionStatus.cancelled) →
      (updateStatus r st e now).endTime = some now ∧
      (updateStatus r st e now).duration = some (now - r.startTime)) ∧
    (¬(st = ExecutionStatus.completed ∨ st = ExecutionStatus.failed ∨
        st = ExecutionStatus.cancelled) →
      (updateStatus r st e now).endTime = r.endTime ∧
      (updateStatus r st e now).duration = r.duration) := by
  constructor <;> intro h
  · rcases h with h | h | h <;> subst h <;> cases e <;>
      unfold updateStatus saveStamp <;> split_ifs <;> simp_all <;>
      try (split_ifs <;> simp_all)
  · cases e <;> unfold updateStatus saveStamp <;> split_ifs <;> simp_all <;>
      try (split_ifs <;> simp_all)

theorem C6_witness :
    (ExecutionStatus.completed = ExecutionStatus.completed ∨
      ExecutionStatus.completed = ExecutionStatus.failed ∨
      ExecutionStatus.completed = ExecutionStatus.cancelled) ∧
    (updateStatus rollbackRecord ExecutionStatus.completed none 100).endTime = some 100 ∧
    (updateStatus rollbackRecord ExecutionStatus.completed none 100).duration =
      some (100 - rollbackRecord.startTime) :=
  ⟨Or.inl rfl,
   ((C6_terminal_stamps rollbackRecord ExecutionStatus.completed none 100).1 (Or.inl rfl)).1,
   ((C6_terminal_stamps rollbackRecord ExecutionStatus.completed none 100).1 (Or.inl rfl)).2⟩

/- ------- C7 ------- -/

/-- C7 counterexample: recording node executions for ids that are not nodes
of the graph drives `completed + failed + skipped` above `totalNodes`
(the record was created for a 1-node workflow, then two different node ids
were recorded as COMPLETED). -/
theorem C7_counterexample :
    overflowRecord.stats.totalNodes = 1 ∧
    overflowRecord.stats.completedNodes + overflowRecord.stats.failedNodes +
      overflowRecord.stats.skippedNodes = 2 ∧
    ¬(overflowRecord.stats.completedNodes + overflowRecord.stats.failedNodes +
      overflowRecord.stats.skippedNodes ≤ overflowRecord.stats.totalNodes) := by
  refine ⟨by decide, by decide, by decide⟩

/-- C7 amended: after `addNodeExecution`, `completed + failed + skipped`
never exceeds the number of node records, so the invariant
`completed + failed + skipped ≤ totalNodes` holds whenever the node list
stays within `totalNodes` entries — which is the case exactly when node
executions are only recorded for the graph's own nodes. -/
theorem C7_invariant (r : WorkflowExecutionRecord) (nr : NodeExecutionRecord) (now : Int)
    (h : (addNodeExecution r nr now).nodes.length ≤ r.stats.totalNodes) :
    (addNodeExecution r nr now).stats.completedNodes +
      (addNodeExecution r nr now).stats.failedNodes +
      (addNodeExecution r nr now).stats.skippedNodes ≤
      (addNodeExecution r nr now).stats.totalNodes := by
  have hc := statusCounts_le (upsertNode r.nodes nr)
  simp only [addNodeExecution, saveStamp] at h ⊢
  simp only [List.length_filter_le] at *
  omega

theorem C7_witness :
    (addNodeExecution oneNodeRecord (sampleNodeRec "X" .completed) 1).nodes.length ≤
      oneNodeRecord.stats.totalNodes ∧
    (addNodeExecution oneNodeRecord (sampleNodeRec "X" .completed) 1).stats.completedNodes +
      (addNodeExecution oneNodeRecord (sampleNodeRec "X" .completed) 1).stats.failedNodes +
      (addNodeExecution oneNodeRecord (sampleNodeRec "X" .completed) 1).stats.skippedNodes ≤
      (addNodeExecution oneNodeRecord (sampleNodeRec "X" .completed) 1).stats.totalNodes :=
  ⟨by decide, C7_invariant oneNodeRecord (sampleNodeRec "X" .completed) 1 (by decide)⟩

/- ------- findIdxStr / upsert lemmas ------- -/

theorem findIdxStr_none_iff {α : Type} (key : α → String) (l : List α) (k : String) :
    findIdxStr key l k = none ↔ ∀ x ∈ l, key x ≠ k := by
  induction l with
  | nil => simp [findIdxStr]
  | cons a t ih =>
    simp only [findIdxStr]
    by_cases h : key a = k
    · simp [h]
    · simp [h, Option.map_eq_none', ih]

theorem findIdxStr_get {α : Type} (key : α → String) (l : List α) (k : String) (i : Nat)
    (h : findIdxStr key l k = some i) : (l.map key).get? i = some k := by
  induction l generalizing i with
  | nil => simp [findIdxStr] at h
  | cons a t ih =>
    simp only [findIdxStr] at h
    by_cases ha : key a = k
    · simp [ha] at h
      subst h
      simp [ha]
    · simp [ha, Option.map_eq_some'] at h
      obtain ⟨i', hi', rfl⟩ := h
      simpa using ih i' hi'

theorem findIdxStr_isSome_of_mem {α : Type} (key : α → String) (l : List α) (k : String)
    (h : k ∈ l.map key) : (findIdxStr key l k).isSome := by
  induction l with
  | nil => simp at h
  | cons a t ih =>
    simp only [findIdxStr]
    by_cases ha : key a = k
    · simp [ha]
    · have h2 : k = key a ∨ k ∈ t.map key := by
        rw [List.map_cons] at h
        exact List.mem_cons.mp h
      have h' : k ∈ t.map key := by
        rcases h2 with h0 | h0
        · exact absurd h0.symm ha
        · exact h0
      have hs := ih h'
      cases hf : findIdxStr key t k with
      | none => rw [hf] at hs; simp at hs
      | some i => simp [ha, hf]

theorem findIdxStr_of_get? {α : Type} (key : α → String) (l : List α) (x : α) (i : Nat)
    (hnd : (l.map key).Nodup) (hget : l.get? i = some x) :
    findIdxStr key l (key x) = some i := by
  induction l generalizing i with
  | nil => simp at hget
  | cons a t ih =>
    cases i with
    | zero =>
      simp only [List.get?] at hget
      cases hget
      simp [findIdxStr]
    | succ i =>
      simp only [List.get?] at hget
      have hnd' := hnd
      rw [List.map_cons] at hnd'
      obtain ⟨hna, hndt⟩ := List.nodup_cons.mp hnd'
      have hxt : x ∈ t := List.get?_mem hget
      have hne : key a ≠ key x := by
        intro he
        have hm : key x ∈ t.map key := List.mem_map_of_mem key hxt
        rw [← he] at hm
        exact hna hm
      have hrec := ih i hndt hget
      simp [findIdxStr, hne, hrec]

theorem set_get?_eq {α : Type} (l : List α) (i : Nat) (v : α)
    (h : l.get? i = some v) : l.set i v = l := by
  induction l generalizing i with
  | nil => simp
  | cons a t ih =>
    cases i with
    | zero => simp only [List.get?] at h; cases h; simp
    | succ i => simp only [List.get?] at h; simp [List.set, ih i h]

theorem upsertNode_nodes_eq (nodes : List NodeExecutionRecord) (nr : NodeExecutionRecord) :
    (upsertNode nodes nr =
      match findIdxStr (fun n => n.nodeId) nodes nr.nodeId with
      | some i => nodes.set i nr
      | none => nodes ++ [nr]) := rfl

theorem upsertNode_map_nodeId (nodes : List NodeExecutionRecord) (nr : NodeExecutionRecord) :
    (upsertNode nodes nr).map (fun n => n.nodeId) = nodes.map (fun n => n.nodeId) ∨
    (upsertNode nodes nr).map (fun n => n.nodeId) =
      nodes.map (fun n => n.nodeId) ++ [nr.nodeId] := by
  unfold upsertNode
  cases hf : findIdxStr (fun n => n.nodeId) nodes nr.nodeId with
  | none => right; simp
  | some i =>
    left
    have hget := findIdxStr_get (fun n => n.nodeId) nodes nr.nodeId i hf
    rw [List.map_set]
    exact set_get?_eq _ i _ hget

theorem upsertNode_nodup (nodes : List NodeExecutionRecord) (nr : NodeExecutionRecord)
    (hnd : (nodes.map (fun n => n.nodeId)).Nodup) :
    ((upsertNode nodes nr).map (fun n => n.nodeId)).Nodup := by
  rcases upsertNode_map_nodeId nodes nr with h | h <;> rw [h]
  · exact hnd
  · have hnotin : nr.nodeId ∉ nodes.map (fun n => n.nodeId) := by
      intro hmem
      have h2 := findIdxStr_isSome_of_mem (fun n => n.nodeId) nodes nr.nodeId hmem
      unfold upsertNode at h
      cases hf : findIdxStr (fun n => n.nodeId) nodes nr.nodeId with
      | none => rw [hf] at h2; simp at h2
      | some i =>
        rw [hf] at h
        have hlen := congrArg List.length h
        simp [List.length_set] at hlen
    simp [List.nodup_append, hnotin, hnd]

theorem upsertNode_filter_eq (nodes : List NodeExecutionRecord) (nr : NodeExecutionRecord)
    (hnd : (nodes.map (fun n => n.nodeId)).Nodup) :
    (upsertNode nodes nr).filter (fun n => n.nodeId == nr.nodeId) = [nr] := by
  induction nodes with
  | nil => simp [upsertNode, findIdxStr]
  | cons a t ih =>
    have hnd2 := hnd
    rw [List.map_cons] at hnd2
    obtain ⟨hna, hndt⟩ := List.nodup_cons.mp hnd2
    simp only [upsertNode, findIdxStr]
    by_cases h : a.nodeId = nr.nodeId
    · simp only [h, beq_self_eq_true, if_pos]
      have hnotin : nr.nodeId ∉ t.map (fun n => n.nodeId) := by rwa [h] at hna
      have hfil : t.filter (fun n => n.nodeId == nr.nodeId) = [] := by
        rw [List.filter_eq_nil_iff]
        intro x hx
        simp only [beq_iff_eq]
        intro he
        exact hnotin (by rw [← he]; exact List.mem_map_of_mem _ hx)
      simp [List.set, List.filter_cons, hfil]
    · have hbe : (a.nodeId == nr.nodeId) = false := by simp [h]
      rw [if_neg (by simp [h])]
      cases hf : findIdxStr (fun n => n.nodeId) t nr.nodeId with
      | none =>
        have hfil : t.filter (fun n => n.nodeId == nr.nodeId) = [] := by
          rw [List.filter_eq_nil_iff]
          intro x hx
          simp only [beq_iff_eq]
          exact (findIdxStr_none_iff (fun n => n.nodeId) t nr.nodeId).mp hf x hx
        simp [List.filter_cons, List.filter_append, hbe, hfil]
      | some i =>
        have ihx := ih hndt
        rw [upsertNode_nodes_eq, hf] at ihx
        simp [List.set, List.filter_cons, hbe, ihx]

/- ------- C8 ------- -/

/-- C8: recordNodeExecution upserts by node id — calling it twice for the
same node id (on a record whose node ids are distinct) leaves exactly one
record for that node id, equal to the argument of the latest call, and the
completed/failed/skipped counts are recomputed from the full node list
after the upsert. -/
theorem C8_upsert_idempotent (r : WorkflowExecutionRecord) (n1 n2 : NodeExecutionRecord)
    (t1 t2 : Int) (hid : n1.nodeId = n2.nodeId)
    (hnd : (r.nodes.map (fun n => n.nodeId)).Nodup) :
    (addNodeExecution (addNodeExecution r n1 t1) n2 t2).nodes.filter
        (fun n => n.nodeId == n2.nodeId) = [n2] ∧
    (addNodeExecution (addNodeExecution r n1 t1) n2 t2).stats.completedNodes =
      ((addNodeExecution (addNodeExecution r n1 t1) n2 t2).nodes.filter
        (fun n => n.status == NodeExecutionStatus.completed)).length ∧
    (addNodeExecution (addNodeExecution r n1 t1) n2 t2).stats.failedNodes =
      ((addNodeExecution (addNodeExecution r n1 t1) n2 t2).nodes.filter
        (fun n => n.status == NodeExecutionStatus.failed)).length ∧
    (addNodeExecution (addNodeExecution r n1 t1) n2 t2).stats.skippedNodes =
      ((addNodeExecution (addNodeExecution r n1 t1) n2 t2).nodes.filter
        (fun n => n.status == NodeExecutionStatus.skipped)).length := by
  have hnodes : (addNodeExecution (addNodeExecution r n1 t1) n2 t2).nodes =
      upsertNode (upsertNode r.nodes n1) n2 := by
    simp [addNodeExecution, saveStamp]
  refine ⟨?_, by simp [addNodeExecution, saveStamp], by simp [addNodeExecution, saveStamp],
    by simp [addNodeExecution, saveStamp]⟩
  rw [hnodes]
  exact upsertNode_filter_eq _ n2 (upsertNode_nodup r.nodes n1 hnd)

theorem C8_witness :
    (sampleNodeRec "X" NodeExecutionStatus.running).nodeId =
      (sampleNodeRec "X" NodeExecutionStatus.completed).nodeId ∧
    (oneNodeRecord.nodes.map (fun n => n.nodeId)).Nodup ∧
    (addNodeExecution (addNodeExecution oneNodeRecord
        (sampleNodeRec "X" NodeExecutionStatus.running) 1)
        (sampleNodeRec "X" NodeExecutionStatus.completed) 2).nodes.filter
      (fun n => n.nodeId == (sampleNodeRec "X" NodeExecutionStatus.completed).nodeId) =
      [sampleNodeRec "X" NodeExecutionStatus.completed] :=
  ⟨rfl, by decide,
   (C8_upsert_idempotent oneNodeRecord (sampleNodeRec "X" NodeExecutionStatus.running)
     (sampleNodeRec "X" NodeExecutionStatus.completed) 1 2 rfl (by decide)).1⟩

/- ------- C3 ------- -/

/-- C3: when the execution record exists, has a checkpoint for the target
node, and its node list contains the target node, `rollback` succeeds:
it truncates the node list to end at the target node (inclusive), appends a
rollback note to the target node's log, sets the record status to PAUSED
and returns as `affectedNodes` exactly the ids of the nodes positioned
after the target, in their original execution order. -/
theorem C3_rollback_spec (record : WorkflowExecutionRecord) (target : String) (now : Int)
    (hcp : ∃ c ∈ record.checkpoints.getD [], c.nodeId = target)
    (hmem : target ∈ record.nodes.map (fun n => n.nodeId)) :
    ∃ k nd cnt,
      findIdxStr (fun n => n.nodeId) record.nodes target = some k ∧
      record.nodes.get? k = some nd ∧ nd.nodeId = target ∧
      cnt = (record.nodes.drop (k + 1)).length ∧
      (rollback (some record) target now).2.success = true ∧
      (rollback (some record) target now).2.affectedNodes =
        (record.nodes.drop (k + 1)).map (fun n => n.nodeId) ∧
      (rollback (some record) target now).1 = some (saveStamp
        { record with
          status := ExecutionStatus.paused
          nodes := (record.nodes.take (k + 1)).set k
            { nd with logs := some (nd.logs.getD [] ++
                [s!"Rolled back from {cnt} subsequent nodes"]) } } now) := by
  obtain ⟨c0, hc0m, hc0⟩ := hcp
  have hcf : ((record.checkpoints.getD []).find? (fun c => c.nodeId == target)).isSome := by
    rw [List.find?_isSome]
    exact ⟨c0, hc0m, by simp [hc0]⟩
  obtain ⟨cf, hcfeq⟩ := Option.isSome_iff_exists.mp hcf
  have hks := findIdxStr_isSome_of_mem (fun n => n.nodeId) record.nodes target hmem
  obtain ⟨k, hk⟩ := Option.isSome_iff_exists.mp hks
  have hgetm := findIdxStr_get (fun n => n.nodeId) record.nodes target k hk
  rw [List.get?_map] at hgetm
  cases hnd : record.nodes.get? k with
  | none => rw [hnd] at hgetm; simp at hgetm
  | some nd =>
    rw [hnd] at hgetm
    have hndid : nd.nodeId = target := by simpa using hgetm
    have htake : (record.nodes.take (k + 1)).get? k = some nd := by
      rw [List.get?_take (by omega)]
      exact hnd
    refine ⟨k, nd, (record.nodes.drop (k + 1)).length, hk, hnd, hndid, rfl, ?_, ?_, ?_⟩ <;>
      simp only [rollback, hcfeq, hk, htake]

theorem C3_witness :
    (∃ c ∈ rollbackRecord.checkpoints.getD [], c.nodeId = "A") ∧
    "A" ∈ rollbackRecord.nodes.map (fun n => n.nodeId) ∧
    (∃ k nd cnt,
      findIdxStr (fun n => n.nodeId) rollbackRecord.nodes "A" = some k ∧
      rollbackRecord.nodes.get? k = some nd ∧ nd.nodeId = "A" ∧
      cnt = (rollbackRecord.nodes.drop (k + 1)).length ∧
      (rollback (some rollbackRecord) "A" 100).2.success = true ∧
      (rollback (some rollbackRecord) "A" 100).2.affectedNodes =
        (rollbackRecord.nodes.drop (k + 1)).map (fun n => n.nodeId) ∧
      (rollback (some rollbackRecord) "A" 100).1 = some (saveStamp
        { rollbackRecord with
          status := ExecutionStatus.paused
          nodes := (rollbackRecord.nodes.take (k + 1)).set k
            { nd with logs := some (nd.logs.getD [] ++
                [s!"Rolled back from {cnt} subsequent nodes"]) } } 100)) ∧
    (rollback (some rollbackRecord) "A" 100).2.affectedNodes = ["B", "C"] ∧
    (rollback (some rollbackRecord) "A" 100).1.map (fun r => r.status) =
      some ExecutionStatus.paused ∧
    (rollback (some rollbackRecord) "A" 100).1.map (fun r => r.nodes.map (fun n => n.nodeId)) =
      some ["A"] :=
  ⟨⟨⟨"A", 10, JVal.jobjNil⟩, by decide, rfl⟩, by decide,
   C3_rollback_spec rollbackRecord "A" 100 ⟨⟨"A", 10, JVal.jobjNil⟩, by decide, rfl⟩ (by decide),
   by decide, by decide, by decide⟩

/- ------- C4 ------- -/

theorem find?_reverse_last {α : Type} (p : α → Bool) (l : List α) (i : Nat) (x : α)
    (hget : l.get? i = some x) (hx : p x = true)
    (hafter : ∀ j y, i < j → l.get? j = some y → p y = false) :
    l.reverse.find? p = some x := by
  induction l using List.reverseRecOn generalizing i with
  | nil => simp at hget
  | append_singleton l' a ih =>
    have hlen : i < l'.length + 1 := by
      have := List.get?_eq_some.mp hget
      simpa using this.1
    rw [List.reverse_append]
    simp only [List.reverse_singleton, List.singleton_append, List.find?]
    by_cases hpa : p a = true
    · rcases Nat.lt_or_ge i l'.length with hi | hi
      · have := hafter l'.length a hi (by simp [List.get?_concat_length])
        rw [hpa] at this
        simp at this
      · have hieq : i = l'.length := by omega
        subst hieq
        rw [List.get?_concat_length] at hget
        cases hget
        simp [hpa]
    · have hpa' : p a = false := by simpa using hpa
      rw [hpa']
      rcases Nat.lt_or_ge i l'.length with hi | hi
      · have hget' : l'.get? i = some x := by
          rw [List.get?_append hi] at hget
          exact hget
        exact ih i hget' (fun j y hj hgy =>
          hafter j y hj (by
            have hjlen : j < l'.length := by
              have := List.get?_eq_some.mp hgy
              simpa using this.1
            rw [List.get?_append hjlen]
            exact hgy))
      · have hieq : i = l'.length := by omega
        subst hieq
        rw [List.get?_concat_length] at hget
        cases hget
        rw [hx] at hpa'
        simp at hpa'

/-- C4 counterexample: for a record whose matching checkpoint has the falsy
state `null`, `getResumeContext` returns the empty object as
`preservedState` instead of the checkpoint's state, so "preservedState =
the state of the checkpoint whose nodeId matches the last-completed node"
fails. -/
theorem C4_counterexample :
    nullStateRecord.checkpoints = some [⟨"A", 10, JVal.jnull⟩] ∧
    (getResumeContext (some nullStateRecord)).map (fun c => c.checkpointNodeId) = some "A" ∧
    (getResumeContext (some nullStateRecord)).map (fun c => c.preservedState) =
      some JVal.jobjNil ∧
    JVal.jobjNil ≠ JVal.jnull := by
  refine ⟨by decide, by decide, by decide, by decide⟩

/-- C4 amended: for a record with distinct node ids, `getResumeContext`
scans from the end for the last COMPLETED node; if none exists it resumes
from the record's first node (empty string when the record has no nodes)
with empty skip list and empty preserved state; otherwise `skippedNodes`
is every COMPLETED node id, `resumeFromNode` is the node immediately after
the last-completed node in list order (empty string when there is none),
and `preservedState` is the state of the first checkpoint whose nodeId
matches the last-completed node when that state is truthy, and the empty
object when there is no such checkpoint or its state is falsy. -/
theorem C4_resume_context_spec (r : WorkflowExecutionRecord)
    (hnd : (r.nodes.map (fun n => n.nodeId)).Nodup) :
    ((∀ n ∈ r.nodes, n.status ≠ NodeExecutionStatus.completed) →
      getResumeContext (some r) = some ⟨r.id, "",
        ((r.nodes.head?).map (fun n => n.nodeId)).getD "", [], JVal.jobjNil⟩) ∧
    (∀ i nd, r.nodes.get? i = some nd → nd.status = NodeExecutionStatus.completed →
      (∀ j nd', i < j → r.nodes.get? j = some nd' →
        nd'.status ≠ NodeExecutionStatus.completed) →
      getResumeContext (some r) = some ⟨r.id, nd.nodeId,
        ((r.nodes.get? (i + 1)).map (fun n => n.nodeId)).getD "",
        (r.nodes.filter (fun n => n.status == NodeExecutionStatus.completed)).map
          (fun n => n.nodeId),
        (match (r.checkpoints.getD []).find? (fun c => c.nodeId == nd.nodeId) with
         | some c => if c.state.jsTruthy then c.state else JVal.jobjNil
         | none => JVal.jobjNil)⟩) := by
  constructor
  · intro hnone
    have hrev : r.nodes.reverse.find?
        (fun n => n.status == NodeExecutionStatus.completed) = none := by
      rw [List.find?_eq_none]
      intro x hx
      simp [hnone x (List.mem_reverse.mp hx)]
    simp only [getResumeContext, hrev]
  · intro i nd hget hst hafter
    have hrev : r.nodes.reverse.find?
        (fun n => n.status == NodeExecutionStatus.completed) = some nd :=
      find?_reverse_last _ r.nodes i nd hget (by simp [hst])
        (fun j y hj hgy => by simp [hafter j y hj hgy])
    have hfidx : findIdxStr (fun n => n.nodeId) r.nodes nd.nodeId = some i :=
      findIdxStr_of_get? (fun n => n.nodeId) r.nodes nd i hnd hget
    simp only [getResumeContext, hrev, hfidx]

theorem C4_witness :
    (resumeRecord.nodes.map (fun n => n.nodeId)).Nodup ∧
    getResumeContext (some resumeRecord) = some ⟨resumeRecord.id,
      (sampleNodeRec "A" NodeExecutionStatus.completed).nodeId,
      ((resumeRecord.nodes.get? 1).map (fun n => n.nodeId)).getD "",
      (resumeRecord.nodes.filter (fun n => n.status == NodeExecutionStatus.completed)).map
        (fun n => n.nodeId),
      (match (resumeRecord.checkpoints.getD []).find?
          (fun c => c.nodeId == (sampleNodeRec "A" NodeExecutionStatus.completed).nodeId) with
       | some c => if c.state.jsTruthy then c.state else JVal.jobjNil
       | none => JVal.jobjNil)⟩ ∧
    (getResumeContext (some resumeRecord)).map (fun c => c.checkpointNodeId) = some "A" ∧
    (getResumeContext (some resumeRecord)).map (fun c => c.skippedNodes) = some ["A"] ∧
    (getResumeContext (some resumeRecord)).map (fun c => c.resumeFromNode) = some "B" := by
  refine ⟨by decide, ?_, by decide, by decide, by decide⟩
  exact (C4_resume_context_spec resumeRecord (by decide)).2 0
    (sampleNodeRec "A" NodeExecutionStatus.completed) rfl rfl
    (by
      intro j nd' hj hget
      match j, hj with
      | 1, _ =>
        have : nd' = sampleNodeRec "B" NodeExecutionStatus.failed := by
          have hx : resumeRecord.nodes.get? 1 =
              some (sampleNodeRec "B" NodeExecutionStatus.failed) := by decide
          rw [hx] at hget
          exact (Option.some.inj hget).symm
        rw [this]
        decide
      | (j + 2), _ =>
        simp [resumeRecord, sampleNodeRec, List.get?] at hget)

/- ------- C9 ------- -/

/-- C9 counterexample: with every node completed (progress = 1),
`getProgress` leaves `estimatedTimeRemaining` undefined although at least
one node has completed, whereas the claims formula would give
`(elapsed / completed) × remaining = 0`. -/
theorem C9_counterexample :
    (getProgress (some doneExec) "e" 100).map (fun p => p.completedNodes) = some 1 ∧
    (getProgress (some doneExec) "e" 100).map (fun p => p.estimatedTimeRemaining) =
      some none ∧
    (some (none : Option ℚ) ≠
      some (some ((((100 : Int) - doneExec.startTime : Int) : ℚ) / 1 * (1 - 1)))) := by
  refine ⟨by decide, by simp [getProgress, doneExec, oneNodeRecord, completedCount], by decide⟩

/-- C9 amended: `getProgress` returns `progress = completed / total`
(0 when the total is 0), `pendingNodes = total − completed − failed −
running`, and `estimatedTimeRemaining` is defined iff at least one node has
completed **and** progress is still below 1, in which case it equals
`(elapsed / completed) × (total − completed)`; on the 10-node scenario it
yields progress 0.6 and 2 pending nodes. -/
theorem C9_progress_spec (ex : MonitoredExecution) (eid : String) (now : Int) :
    (∃ p, getProgress (some ex) eid now = some p ∧
      p.totalNodes = ex.record.stats.totalNodes ∧
      p.completedNodes = completedCount ex ∧
      p.failedNodes = failedCount ex ∧
      p.runningNodes = runningCount ex ∧
      p.pendingNodes = (ex.record.stats.totalNodes : Int) - completedCount ex -
        failedCount ex - runningCount ex ∧
      p.progress = (if 0 < ex.record.stats.totalNodes then
        (completedCount ex : ℚ) / (ex.record.stats.totalNodes : ℚ) else 0) ∧
      p.estimatedTimeRemaining = (if 0 < completedCount ex ∧ p.progress < 1 then
        some (((now - ex.startTime : Int) : ℚ) / (completedCount ex : ℚ) *
          ((ex.record.stats.totalNodes : ℚ) - (completedCount ex : ℚ)))
        else none)) ∧
    (getProgress (some progressExec) "e" 100).map (fun p => p.progress) =
      some ((3 : ℚ) / 5) ∧
    (getProgress (some progressExec) "e" 100).map (fun p => p.pendingNodes) = some 2 := by
  refine ⟨⟨_, rfl, rfl, rfl, rfl, rfl, rfl, ?_, ?_⟩,
    by simp [getProgress, progressExec, oneNodeRecord]; norm_num, by decide⟩
  · simp [getProgress, completedCount, failedCount, runningCount]
  · simp [getProgress, completedCount, failedCount, runningCount]

/- ------- C10 ------- -/

/-- Marking every edge enabled (used to show the raw-edge checks ignore the
`enabled` flag). -/
def enableAll (w : WorkflowDefinition) : WorkflowDefinition :=
  { w with edges := w.edges.map (fun e => { e with enabled := some true }) }

theorem adjFold_filter (es : List WorkflowEdge) (m : Adjacency) :
    es.foldl (fun m e => if e.enabled != some false then
        setA m e.source (nb m e.source ++ [e.target]) else m) m =
    (es.filter enabledEdge).foldl (fun m e => if e.enabled != some false then
        setA m e.source (nb m e.source ++ [e.target]) else m) m := by
  induction es generalizing m with
  | nil => rfl
  | cons e t ih =>
    by_cases h : (e.enabled != some false) = true
    · rw [List.filter_cons_of_pos (by exact h)]
      simp only [List.foldl_cons, if_pos h]
      exact ih _
    · rw [List.filter_cons_of_neg (by simpa [enabledEdge] using h)]
      simp only [List.foldl_cons, if_neg h]
      exact ih m

theorem buildAdjacency_filter (nodes : List WorkflowNode) (edges : List WorkflowEdge) :
    buildAdjacency nodes edges = buildAdjacency nodes (edges.filter enabledEdge) := by
  unfold buildAdjacency
  exact adjFold_filter edges _

theorem any_target_enableAll (edges : List WorkflowEdge) (nid : String) :
    ((edges.map (fun e => { e with enabled := some true })).any
      (fun e => e.target == nid)) = edges.any (fun e => e.target == nid) := by
  induction edges <;> simp_all

theorem any_source_enableAll (edges : List WorkflowEdge) (nid : String) :
    ((edges.map (fun e => { e with enabled := some true })).any
      (fun e => e.source == nid)) = edges.any (fun e => e.source == nid) := by
  induction edges <;> simp_all

/-- C10: a disabled edge (`enabled = false`) is excluded from the adjacency
map that both `detectCycles` and `calculateMaxDepth` build and traverse,
while the isolated-node / no-start / no-end warnings and the
`startNodes`/`endNodes` statistics are computed from the raw edge list and
do not look at the `enabled` flag; concretely, a 2-cycle whose closing edge
is disabled produces no CIRCULAR_DEPENDENCY error and has depth 2, not 0. -/
theorem C10_enabled_flag_usage (w : WorkflowDefinition) :
    buildAdjacency w.nodes w.edges =
      buildAdjacency w.nodes (w.edges.filter enabledEdge) ∧
    (validateTopology w).2 = (validateTopology (enableAll w)).2 ∧
    (calculateStats w).startNodes = (calculateStats (enableAll w)).startNodes ∧
    (calculateStats w).endNodes = (calculateStats (enableAll w)).endNodes ∧
    ((validateWorkflow disabledCycleWorkflow none).errors.all
      (fun e => e.code != "CIRCULAR_DEPENDENCY")) = true ∧
    (validateWorkflow disabledCycleWorkflow none).stats.maxDepth = 2 := by
  refine ⟨buildAdjacency_filter w.nodes w.edges, ?_, ?_, ?_, by decide, by decide⟩
  · by_cases hn : w.nodes.isEmpty <;>
      simp [validateTopology, enableAll, hn, Function.comp_def]
  · simp [calculateStats, enableAll, Function.comp_def]
  · simp [calculateStats, enableAll, Function.comp_def]

/- ------- C1/C2 core: ghost DFS development ------- -/

theorem GExtends.rfl (s : GSt) : GExtends s s :=
  ⟨⟨[], by simp⟩, ⟨[], by simp⟩, ⟨[], by simp⟩⟩

theorem GExtends.trans {s1 s2 s3 : GSt} (h1 : GExtends s1 s2) (h2 : GExtends s2 s3) :
    GExtends s1 s3 := by
  obtain ⟨⟨a1, ha1⟩, ⟨b1, hb1⟩, ⟨c1, hc1⟩⟩ := h1
  obtain ⟨⟨a2, ha2⟩, ⟨b2, hb2⟩, ⟨c2, hc2⟩⟩ := h2
  exact ⟨⟨a2 ++ a1, by rw [ha2, ha1, List.append_assoc]⟩,
    ⟨b1 ++ b2, by rw [hb2, hb1, List.append_assoc]⟩,
    ⟨c1 ++ c2, by rw [hc2, hc1, List.append_assoc]⟩⟩

theorem GExtends.visited_sub {s s' : GSt} (h : GExtends s s') :
    s.visited ⊆ s'.visited := by
  obtain ⟨⟨t, ht⟩, _, _⟩ := h
  rw [ht]
  exact fun x hx => List.mem_append_right t hx

theorem GExtends.cycles_nil {s s' : GSt} (h : GExtends s s') (hnil : s'.cycles = []) :
    s.cycles = [] := by
  obtain ⟨_, ⟨t, ht⟩, _⟩ := h
  rw [ht] at hnil
  exact List.append_eq_nil.mp hnil |>.1

theorem GExtends.mem_finished {s s' : GSt} (h : GExtends s s') {v : String}
    (hv : v ∈ s.finished) : v ∈ s'.finished := by
  obtain ⟨_, _, ⟨t, ht⟩⟩ := h
  rw [ht]
  exact List.mem_append_left t hv

theorem goCycleG_extends (rec : String → List String → GSt → GSt)
    (hrec : ∀ n p s, GExtends s (rec n p s)) (path' : List String) :
    ∀ ns s, GExtends s (goCycleG rec path' ns s) := by
  intro ns
  induction ns with
  | nil => intro s; exact GExtends.rfl s
  | cons n t ih =>
    intro s
    simp only [goCycleG]
    by_cases hv : n ∈ s.visited
    · simp only [if_pos hv]
      by_cases hp : n ∈ path'
      · simp only [if_pos hp]
        exact GExtends.trans ⟨⟨[], by simp⟩, ⟨[pathCycle path' n], by simp⟩, ⟨[], by simp⟩⟩
          (ih _)
      · simp only [if_neg hp]
        exact ih s
    · simp only [if_neg hv]
      exact GExtends.trans (hrec n path' s) (ih _)

theorem dfsCycleG_extends (adj : Adjacency) :
    ∀ fuel u path s, GExtends s (dfsCycleG adj fuel u path s) := by
  intro fuel
  induction fuel with
  | zero => intro u path s; exact GExtends.rfl s
  | succ fuel ih =>
    intro u path s
    simp only [dfsCycleG]
    refine GExtends.trans (GExtends.trans
      (⟨⟨[u], by simp⟩, ⟨[], by simp⟩, ⟨[], by simp⟩⟩ :
        GExtends s { s with visited := u :: s.visited })
      (goCycleG_extends (dfsCycleG adj fuel) ih (path ++ [u]) (nb adj u)
        { s with visited := u :: s.visited })) ?_
    exact ⟨⟨[], by simp⟩, ⟨[], by simp⟩,
      ⟨[u], by simp⟩⟩

/-- The ghost DFS projects onto the source DFS: same visited set and same
cycles. -/
theorem goCycleG_toPlain (f : String → List String → DfsSt → DfsSt)
    (g : String → List String → GSt → GSt)
    (hfg : ∀ n p s, (g n p s).toPlain = f n p s.toPlain) (path' : List String) :
    ∀ ns s, (goCycleG g path' ns s).toPlain = goCycle f path' ns s.toPlain := by
  intro ns
  induction ns with
  | nil => intro s; rfl
  | cons n t ih =>
    intro s
    simp only [goCycleG, goCycle]
    by_cases hv : n ∈ s.visited
    · have hv' : n ∈ s.toPlain.visited := hv
      simp only [if_pos hv, if_pos hv']
      by_cases hp : n ∈ path'
      · simp only [if_pos hp]
        exact ih _
      · simp only [if_neg hp]
        exact ih s
    · have hv' : n ∉ s.toPlain.visited := hv
      simp only [if_neg hv, if_neg hv']
      rw [ih (g n path' s), hfg n path' s]

theorem dfsCycleG_toPlain (adj : Adjacency) :
    ∀ fuel u path s, (dfsCycleG adj fuel u path s).toPlain =
      dfsCycle adj fuel u path s.toPlain := by
  intro fuel
  induction fuel with
  | zero => intro u path s; rfl
  | succ fuel ih =>
    intro u path s
    simp only [dfsCycleG, dfsCycle]
    have hfin : ∀ (s2 : GSt) (x : String),
        ({ s2 with finished := s2.finished ++ [x] } : GSt).toPlain = s2.toPlain :=
      fun _ _ => rfl
    rw [hfin]
    rw [goCycleG_toPlain (dfsCycle adj fuel) (dfsCycleG adj fuel) ih (path ++ [u])
      (nb adj u) { s with visited := u :: s.visited }]
    rfl

theorem detectCyclesG_cycles (nodes : List WorkflowNode) (edges : List WorkflowEdge) :
    detectCycles nodes edges = (detectCyclesG nodes edges).cycles := by
  unfold detectCycles detectCyclesG
  have key : ∀ (ns : List WorkflowNode) (s : GSt),
      (ns.foldl (fun s n => if n.id ∈ s.visited then s
        else dfsCycleG (buildAdjacency nodes edges) (fuelBound nodes edges) n.id [] s) s).toPlain =
      ns.foldl (fun s n => if n.id ∈ s.visited then s
        else dfsCycle (buildAdjacency nodes edges) (fuelBound nodes edges) n.id [] s) s.toPlain := by
    intro ns
    induction ns with
    | nil => intro s; rfl
    | cons n t ih =>
      intro s
      simp only [List.foldl_cons]
      by_cases hv : n.id ∈ s.visited
      · have hv' : n.id ∈ s.toPlain.visited := hv
        simp only [if_pos hv, if_pos hv']
        exact ih s
      · have hv' : n.id ∉ s.toPlain.visited := hv
        simp only [if_neg hv, if_neg hv']
        rw [ih _, dfsCycleG_toPlain]
  have h := key nodes ⟨[], [], []⟩
  have hc := congrArg DfsSt.cycles h
  exact hc.symm

/- ------- adjacency characterisation ------- -/

theorem lookupA_cons {α : Type} (p : String × α) (rest : List (String × α)) (k' : String) :
    lookupA (p :: rest) k' = if p.1 = k' then some p.2 else lookupA rest k' := by
  by_cases h : p.1 = k'
  · simp [lookupA, List.find?_cons, h]
  · have hb : (p.1 == k') = false := by simp [h]
    simp [lookupA, List.find?_cons, hb, h]

theorem lookupA_setA {α : Type} (m : List (String × α)) (k : String) (v : α) (k' : String) :
    lookupA (setA m k v) k' = if k' = k then some v else lookupA m k' := by
  induction m with
  | nil =>
    by_cases h : k' = k
    · simp [setA, lookupA_cons, h]
    · simp only [setA, lookupA_cons, if_neg (fun he : k = k' => h he.symm), if_neg h]
  | cons p rest ih =>
    by_cases hp : p.1 = k
    · have hb : (p.1 == k) = true := by simp [hp]
      simp only [setA, hb, if_true]
      by_cases h : k' = k
      · simp [lookupA_cons, h]
      · rw [lookupA_cons, lookupA_cons, if_neg h, if_neg (fun he : k = k' => h he.symm),
          if_neg (by rw [hp]; exact fun he : k = k' => h he.symm)]
    · have hb : (p.1 == k) = false := by simp [hp]
      simp only [setA, hb, Bool.false_eq_true, if_false]
      by_cases hpk : p.1 = k'
      · have h' : ¬(k' = k) := fun he => hp (by rw [hpk, he])
        simp [lookupA_cons, hpk, h']
      · rw [lookupA_cons, if_neg hpk, ih, lookupA_cons, if_neg hpk]

theorem nb_setA (m : Adjacency) (k : String) (v : List String) (u : String) :
    nb (setA m k v) u = if u = k then v else nb m u := by
  unfold nb
  rw [lookupA_setA]
  by_cases h : u = k <;> simp [h]

theorem nb_initAdj (nodes : List WorkflowNode) (u : String) :
    nb (nodes.foldl (fun m n => setA m n.id []) []) u = [] := by
  have key : ∀ (ns : List WorkflowNode) (m : Adjacency),
      (∀ x, nb m x = []) → ∀ x, nb (ns.foldl (fun m n => setA m n.id []) m) x = [] := by
    intro ns
    induction ns with
    | nil => intro m hm x; exact hm x
    | cons n t ih =>
      intro m hm x
      simp only [List.foldl_cons]
      refine ih _ (fun y => ?_) x
      rw [nb_setA]
      by_cases h : y = n.id <;> simp [h, hm y]
  exact key nodes [] (fun x => by simp [nb, lookupA, List.find?]) u

theorem nb_foldEdges (edges : List WorkflowEdge) (u : String) :
    ∀ m : Adjacency,
      nb (edges.foldl (fun m e => if e.enabled != some false then
          setA m e.source (nb m e.source ++ [e.target]) else m) m) u =
      nb m u ++ ((edges.filter (fun e => enabledEdge e && e.source == u)).map
        (fun e => e.target)) := by
  induction edges with
  | nil => intro m; simp
  | cons e t ih =>
    intro m
    simp only [List.foldl_cons, List.filter_cons]
    by_cases hen : (e.enabled != some false) = true
    · rw [if_pos hen, ih]
      by_cases hsrc : e.source = u
      · have hcond : (enabledEdge e && e.source == u) = true := by
          simp [enabledEdge, hen, hsrc]
        rw [hcond]
        rw [nb_setA, if_pos hsrc.symm]
        simp [hsrc, List.append_assoc]
      · have hcond : (enabledEdge e && e.source == u) = false := by
          simp [enabledEdge, hsrc]
        rw [hcond]
        rw [nb_setA, if_neg (fun he => hsrc he.symm)]
        simp
    · rw [if_neg hen, ih]
      have hcond : (enabledEdge e && e.source == u) = false := by
        have he : enabledEdge e = false := by
          unfold enabledEdge
          simpa using hen
        simp [he]
      rw [hcond]
      simp

theorem nb_buildAdjacency (nodes : List WorkflowNode) (edges : List WorkflowEdge) (u : String) :
    nb (buildAdjacency nodes edges) u =
      ((edges.filter (fun e => enabledEdge e && e.source == u)).map (fun e => e.target)) := by
  unfold buildAdjacency
  rw [nb_foldEdges, nb_initAdj]
  simp

theorem step_iff_stepB (nodes : List WorkflowNode) (edges : List WorkflowEdge)
    (a b : String) :
    Step (buildAdjacency nodes edges) a b ↔ stepB edges a b = true := by
  unfold Step stepB
  rw [nb_buildAdjacency]
  simp only [List.mem_map, List.mem_filter, List.any_eq_true, Bool.and_eq_true, beq_iff_eq]
  constructor
  · rintro ⟨e, ⟨he, hen, hsrc⟩, htgt⟩
    exact ⟨e, he, ⟨hen, hsrc⟩, htgt⟩
  · rintro ⟨e, he, ⟨hen, hsrc⟩, htgt⟩
    exact ⟨e, ⟨he, hen, hsrc⟩, htgt⟩

theorem step_mem_univIds (nodes : List WorkflowNode) (edges : List WorkflowEdge)
    (v w : String) (h : Step (buildAdjacency nodes edges) v w) :
    w ∈ univIds nodes edges := by
  unfold Step at h
  rw [nb_buildAdjacency] at h
  obtain ⟨e, he, htgt⟩ := List.mem_map.mp h
  unfold univIds
  rw [List.mem_toFinset, List.mem_append]
  right
  rw [← htgt]
  exact List.mem_map_of_mem _ (List.mem_of_mem_filter he)

/- ------- bridging the Bool-level and relational graph predicates ------- -/

theorem chainB_iff_chain (nodes : List WorkflowNode) (edges : List WorkflowEdge) :
    ∀ l, chainB edges l = true ↔ List.Chain' (Step (buildAdjacency nodes edges)) l := by
  intro l
  induction l with
  | nil => simp [chainB]
  | cons a l ih =>
    cases l with
    | nil => simp [chainB]
    | cons b t =>
      rw [List.chain'_cons]
      show (stepB edges a b && chainB edges (b :: t)) = true ↔ _
      rw [Bool.and_eq_true, ih, ← step_iff_stepB nodes edges a b]

theorem memNodes_iff (nodes : List WorkflowNode) (l : List String) :
    memNodes nodes l = true ↔ ∀ v ∈ l, v ∈ nodes.map (fun n => n.id) := by
  unfold memNodes
  rw [List.all_eq_true]
  constructor
  · intro h v hv
    have := h v hv
    rw [List.any_eq_true] at this
    obtain ⟨n, hn, he⟩ := this
    rw [List.mem_map]
    exact ⟨n, hn, by simpa using he⟩
  · intro h v hv
    have := h v hv
    rw [List.mem_map] at this
    obtain ⟨n, hn, he⟩ := this
    rw [List.any_eq_true]
    exact ⟨n, hn, by simp [he]⟩

theorem isCycleB_closed (nodes : List WorkflowNode) (edges : List WorkflowEdge)
    (c : List String) (h : isCycleB nodes edges c = true) :
    ClosedCycleP (buildAdjacency nodes edges) c ∧ ∀ v ∈ c, v ∈ nodes.map (fun n => n.id) := by
  cases c with
  | nil => simp [isCycleB] at h
  | cons x xs =>
    have h' : (chainB edges (x :: xs) &&
        stepB edges (((x :: xs).getLast?).getD x) x && memNodes nodes (x :: xs)) = true := h
    simp only [Bool.and_eq_true] at h'
    obtain ⟨⟨hch, hcl⟩, hmem⟩ := h'
    have hlq : (x :: xs).getLast? = some ((x :: xs).getLast (by simp)) :=
      List.getLast?_eq_getLast _ (by simp)
    rw [hlq] at hcl
    refine ⟨⟨(chainB_iff_chain nodes edges _).mp hch, ?_⟩, (memNodes_iff nodes _).mp hmem⟩
    rw [step_iff_stepB nodes edges]
    simpa using hcl

theorem closed_isCycleB (nodes : List WorkflowNode) (edges : List WorkflowEdge)
    (c : List String) (hc : ClosedCycleP (buildAdjacency nodes edges) c)
    (hmem : ∀ v ∈ c, v ∈ nodes.map (fun n => n.id)) :
    isCycleB nodes edges c = true := by
  cases c with
  | nil => exact absurd hc (by simp [ClosedCycleP])
  | cons x xs =>
    obtain ⟨hch, hcl⟩ := hc
    show (chainB edges (x :: xs) &&
        stepB edges (((x :: xs).getLast?).getD x) x && memNodes nodes (x :: xs)) = true
    have hlq : (x :: xs).getLast? = some ((x :: xs).getLast (by simp)) :=
      List.getLast?_eq_getLast _ (by simp)
    rw [hlq]
    simp only [Option.getD_some, Bool.and_eq_true]
    exact ⟨⟨(chainB_iff_chain nodes edges _).mpr hch,
      (step_iff_stepB nodes edges _ _).mp hcl⟩, (memNodes_iff nodes _).mpr hmem⟩

/- ------- recorded cycles are genuine cycles ------- -/

theorem get?_indexOf_self {l : List String} {a : String} (h : a ∈ l) :
    l.get? (l.indexOf a) = some a := by
  induction l with
  | nil => simp at h
  | cons b t ih =>
    by_cases hb : b == a
    · simp [List.indexOf_cons, hb, List.get?]
      simpa using hb
    · have hat : a ∈ t := by
        rcases List.mem_cons.mp h with h0 | h0
        · rw [h0] at hb; simp at hb
        · exact h0
      simp [List.indexOf_cons, hb, List.get?]
      simpa using ih hat

theorem getLast?_drop {l : List String} {i : Nat} (h : i < l.length) :
    (l.drop i).getLast? = l.getLast? := by
  induction l generalizing i with
  | nil => simp at h
  | cons a t ih =>
    cases i with
    | zero => rfl
    | succ i =>
      have hi : i < t.length := by simpa using h
      rw [List.drop_succ_cons, ih hi]
      cases t with
      | nil => simp at hi
      | cons b t' => rw [List.getLast?_cons_cons]

theorem pathCycle_ok (adj : Adjacency) (P : String → Prop) (path' : List String) (n u : String)
    (hchain : List.Chain' (Step adj) path') (hlast : path'.getLast? = some u)
    (hmem : n ∈ path') (hstep : Step adj u n) (hP : ∀ v ∈ path', P v) :
    RecordedCycleOK adj P (pathCycle path' n) := by
  unfold RecordedCycleOK pathCycle
  have hi : path'.indexOf n < path'.length := List.indexOf_lt_length.mpr hmem
  constructor
  · rw [List.dropLast_concat]
    have hne : path'.drop (path'.indexOf n) ≠ [] := by
      intro hcon
      rw [List.drop_eq_nil_iff_le] at hcon
      omega
    obtain ⟨x, xs, hx⟩ := List.exists_cons_of_ne_nil hne
    have hhead : x = n := by
      have h1 : (path'.drop (path'.indexOf n)).head? = some n := by
        rw [List.head?_drop]
        simpa using get?_indexOf_self hmem
      rw [hx] at h1
      simpa using h1
    have hlastx : (x :: xs).getLast (by simp) = u := by
      have h1 : (path'.drop (path'.indexOf n)).getLast? = some u := by
        rw [getLast?_drop hi, hlast]
      rw [hx, List.getLast?_eq_getLast _ (by simp)] at h1
      simpa using h1
    have hchx : List.Chain' (Step adj) (x :: xs) := by
      rw [← hx]
      exact hchain.suffix (List.drop_suffix _ _)
    rw [hx]
    exact ⟨hchx, by rw [hlastx, hhead]; exact hstep⟩
  · intro v hv
    rcases List.mem_append.mp hv with hv | hv
    · exact hP v (List.drop_subset _ _ hv)
    · rw [List.mem_singleton.mp hv]
      exact hP n hmem

/- ------- a TopoOK finished list admits no cycle ------- -/

theorem topoOK_step_lt (adj : Adjacency) (f : List String) (hnd : f.Nodup)
    (ht : TopoOK adj f) :
    ∀ v w, v ∈ f → Step adj v w → w ∈ f ∧ f.indexOf w < f.indexOf v := by
  induction ht with
  | nil => intro v w hv _; simp at hv
  | @snoc f u htopo hnb ih =>
    intro v w hv hstep
    have hnd' : f.Nodup ∧ u ∉ f := by
      rw [List.nodup_append] at hnd
      refine ⟨hnd.1, fun hu => ?_⟩
      exact hnd.2.2 hu (List.mem_singleton_self u)
    rcases List.mem_append.mp hv with hvf | hvu
    · obtain ⟨hwf, hlt⟩ := ih hnd'.1 v w hvf hstep
      refine ⟨List.mem_append_left _ hwf, ?_⟩
      rw [List.indexOf_append_of_mem hwf, List.indexOf_append_of_mem hvf]
      exact hlt
    · have hvu' : v = u := List.mem_singleton.mp hvu
      subst hvu'
      have hwf : w ∈ f := hnb w hstep
      refine ⟨List.mem_append_left _ hwf, ?_⟩
      rw [List.indexOf_append_of_mem hwf]
      have h1 : f.indexOf w < f.length := List.indexOf_lt_length.mpr hwf
      have h2 : f.length ≤ (f ++ [v]).indexOf v := by
        by_cases hvf : v ∈ f
        · exact absurd hvf hnd'.2
        · rw [List.indexOf_append_of_not_mem hvf]
          simp
      omega

theorem topoOK_no_cycle (adj : Adjacency) (f : List String) (hnd : f.Nodup)
    (ht : TopoOK adj f) (c : List String) (hc : ClosedCycleP adj c)
    (hmem : ∀ v ∈ c, v ∈ f) : False := by
  cases c with
  | nil => exact hc
  | cons x xs =>
    obtain ⟨hchain, hclose⟩ := hc
    have hx : x ∈ f := hmem x (List.mem_cons_self x xs)
    have key : ∀ (l : List String) (a : String), List.Chain' (Step adj) (a :: l) → a ∈ f →
        ((a :: l).getLast (by simp)) ∈ f ∧
        (l ≠ [] → f.indexOf ((a :: l).getLast (by simp)) < f.indexOf a) := by
      intro l
      induction l with
      | nil =>
        intro a _ ha
        exact ⟨by simpa using ha, fun h => absurd rfl h⟩
      | cons b t ihl =>
        intro a hch ha
        rw [List.chain'_cons] at hch
        obtain ⟨hab, hbt⟩ := hch
        obtain ⟨hbf, hblt⟩ := topoOK_step_lt adj f hnd ht a b ha hab
        obtain ⟨hlf, hllt⟩ := ihl b hbt hbf
        have hgl : (a :: b :: t).getLast (by simp) = (b :: t).getLast (by simp) :=
          List.getLast_cons (by simp)
        refine ⟨by rw [hgl]; exact hlf, fun _ => ?_⟩
        rw [hgl]
        cases t with
        | nil =>
          simp only [List.getLast_singleton]
          exact hblt
        | cons c' t' =>
          have := hllt (by simp)
          omega
    obtain ⟨hlf, hlt⟩ := key xs x hchain hx
    obtain ⟨hxf2, hcllt⟩ := topoOK_step_lt adj f hnd ht _ x hlf hclose
    cases xs with
    | nil =>
      simp only [List.getLast_singleton] at hcllt
      omega
    | cons b t =>
      have := hlt (by simp)
      omega

/- ------- the main DFS invariant ------- -/

theorem goCycleG_invariant (adj : Adjacency) (univ : Finset String) (P : String → Prop)
    (hclosed : ∀ v w, Step adj v w → w ∈ univ)
    (hPstep : ∀ v w, P v → Step adj v w → P w)
    (fuel : Nat)
    (hrec : ∀ u path s,
      (univ \ s.visited.toFinset).card < fuel →
      u ∉ s.visited → u ∈ univ →
      List.Chain' (Step adj) (path ++ [u]) →
      (∀ v ∈ path ++ [u], P v) →
      DfsPre adj P s path →
      DfsPre adj P (dfsCycleG adj fuel u path s) path ∧
      u ∈ (dfsCycleG adj fuel u path s).finished)
    (path' : List String) (u : String)
    (hlast : path'.getLast? = some u)
    (hchain : List.Chain' (Step adj) path')
    (hPp : ∀ v ∈ path', P v) :
    ∀ ns s,
      (univ \ s.visited.toFinset).card < fuel →
      (∀ n ∈ ns, Step adj u n) →
      DfsPre adj P s path' →
      DfsPre adj P (goCycleG (dfsCycleG adj fuel) path' ns s) path' ∧
      ((goCycleG (dfsCycleG adj fuel) path' ns s).cycles = [] →
        ∀ n ∈ ns, n ∈ (goCycleG (dfsCycleG adj fuel) path' ns s).finished) := by
  intro ns
  induction ns with
  | nil =>
    intro s _ _ hpre
    exact ⟨hpre, fun _ n hn => absurd hn (List.not_mem_nil n)⟩
  | cons n t iht =>
    intro s hfuel hns hpre
    simp only [goCycleG]
    by_cases hv : n ∈ s.visited
    · simp only [if_pos hv]
      by_cases hp : n ∈ path'
      · simp only [if_pos hp]
        have hpre2 : DfsPre adj P
            { s with cycles := s.cycles ++ [pathCycle path' n] } path' := by
          refine ⟨⟨hpre.grayInv.mem_visited, hpre.grayInv.nodup_finished,
            hpre.grayInv.gray_not_finished⟩, ?_, ?_⟩
          · intro hcon
            simp at hcon
          · intro c hc
            rcases List.mem_append.mp hc with hc | hc
            · exact hpre.cyc c hc
            · rw [List.mem_singleton.mp hc]
              exact pathCycle_ok adj P path' n u hchain hlast hp
                (hns n (List.mem_cons_self n t)) hPp
        obtain ⟨hpreF, _⟩ := iht { s with cycles := s.cycles ++ [pathCycle path' n] }
          hfuel (fun m hm => hns m (List.mem_cons_of_mem n hm)) hpre2
        refine ⟨hpreF, fun hcyc => ?_⟩
        exfalso
        have hext := goCycleG_extends (dfsCycleG adj fuel)
          (fun n p s => dfsCycleG_extends adj fuel n p s) path' t
          { s with cycles := s.cycles ++ [pathCycle path' n] }
        have hnil := hext.cycles_nil hcyc
        simp at hnil
      · simp only [if_neg hp]
        have hnf : n ∈ s.finished := by
          rcases (hpre.grayInv.mem_visited n).mp hv with h | h
          · exact h
          · exact absurd h hp
        obtain ⟨hpreF, hcf⟩ := iht s hfuel
          (fun m hm => hns m (List.mem_cons_of_mem n hm)) hpre
        refine ⟨hpreF, fun hcyc m hm => ?_⟩
        rcases List.mem_cons.mp hm with hm | hm
        · subst hm
          exact (goCycleG_extends (dfsCycleG adj fuel)
            (fun n p s => dfsCycleG_extends adj fuel n p s) path' t s).mem_finished hnf
        · exact hcf hcyc m hm
    · simp only [if_neg hv]
      have hstepn : Step adj u n := hns n (List.mem_cons_self n t)
      have hnuniv : n ∈ univ := hclosed u n hstepn
      have humem : u ∈ path' := List.mem_of_mem_getLast? hlast
      have hchain' : List.Chain' (Step adj) (path' ++ [n]) := by
        rw [List.chain'_append]
        refine ⟨hchain, List.chain'_singleton n, ?_⟩
        intro x hx y hy
        rw [hlast] at hx
        have hxu : u = x := by simpa using hx
        have hyn : n = y := by simpa using hy
        rw [← hxu, ← hyn]
        exact hstepn
      have hP' : ∀ v ∈ path' ++ [n], P v := by
        intro v hvm
        rcases List.mem_append.mp hvm with h | h
        · exact hPp v h
        · rw [List.mem_singleton.mp h]
          exact hPstep u n (hPp u humem) hstepn
      obtain ⟨hpre', hnfin⟩ := hrec n path' s hfuel hv hnuniv hchain' hP' hpre
      have hfuel' : (univ \ (dfsCycleG adj fuel n path' s).visited.toFinset).card < fuel := by
        have hsub := (dfsCycleG_extends adj fuel n path' s).visited_sub
        refine lt_of_le_of_lt (Finset.card_le_card ?_) hfuel
        intro x hx
        rw [Finset.mem_sdiff] at hx ⊢
        refine ⟨hx.1, fun hmem => hx.2 ?_⟩
        rw [List.mem_toFinset] at hmem ⊢
        exact hsub hmem
      obtain ⟨hpreF, hcf⟩ := iht (dfsCycleG adj fuel n path' s) hfuel'
        (fun m hm => hns m (List.mem_cons_of_mem n hm)) hpre'
      refine ⟨hpreF, fun hcyc m hm => ?_⟩
      rcases List.mem_cons.mp hm with hm | hm
      · subst hm
        exact (goCycleG_extends (dfsCycleG adj fuel)
          (fun n p s => dfsCycleG_extends adj fuel n p s) path' t
          (dfsCycleG adj fuel m path' s)).mem_finished hnfin
      · exact hcf hcyc m hm

theorem dfsCycleG_invariant (adj : Adjacency) (univ : Finset String) (P : String → Prop)
    (hclosed : ∀ v w, Step adj v w → w ∈ univ)
    (hPstep : ∀ v w, P v → Step adj v w → P w) :
    ∀ fuel u path s,
      (univ \ s.visited.toFinset).card < fuel →
      u ∉ s.visited → u ∈ univ →
      List.Chain' (Step adj) (path ++ [u]) →
      (∀ v ∈ path ++ [u], P v) →
      DfsPre adj P s path →
      DfsPre adj P (dfsCycleG adj fuel u path s) path ∧
      u ∈ (dfsCycleG adj fuel u path s).finished := by
  intro fuel
  induction fuel with
  | zero => intro u path s hfuel _ _ _ _ _; exact absurd hfuel (Nat.not_lt_zero _)
  | succ fuel ih =>
    intro u path s hfuel hu huuniv hchain hP hpre
    have humemp : u ∈ path ++ [u] := List.mem_append_right _ (List.mem_singleton_self u)
    have hupath : u ∉ path := fun hup =>
      hu ((hpre.grayInv.mem_visited u).mpr (Or.inr hup))
    have hpre1 : DfsPre adj P { s with visited := u :: s.visited } (path ++ [u]) := by
      refine ⟨⟨?_, hpre.grayInv.nodup_finished, ?_⟩, hpre.topo, hpre.cyc⟩
      · intro v
        constructor
        · intro hvm
          rcases List.mem_cons.mp hvm with h | h
          · exact Or.inr (by rw [h]; exact humemp)
          · rcases (hpre.grayInv.mem_visited v).mp h with h2 | h2
            · exact Or.inl h2
            · exact Or.inr (List.mem_append_left _ h2)
        · intro hvm
          rcases hvm with h | h
          · exact List.mem_cons_of_mem _ ((hpre.grayInv.mem_visited v).mpr (Or.inl h))
          · rcases List.mem_append.mp h with h2 | h2
            · exact List.mem_cons_of_mem _ ((hpre.grayInv.mem_visited v).mpr (Or.inr h2))
            · rw [List.mem_singleton.mp h2]
              exact List.mem_cons_self _ _
      · intro v hv
        rcases List.mem_append.mp hv with h | h
        · exact hpre.grayInv.gray_not_finished v h
        · rw [List.mem_singleton.mp h]
          intro hfin
          exact hu ((hpre.grayInv.mem_visited u).mpr (Or.inl hfin))
    have humemdiff : u ∈ univ \ s.visited.toFinset :=
      Finset.mem_sdiff.mpr ⟨huuniv, by rw [List.mem_toFinset]; exact hu⟩
    have hfuel1 :
        (univ \ ({ s with visited := u :: s.visited } : GSt).visited.toFinset).card < fuel := by
      show (univ \ (u :: s.visited).toFinset).card < fuel
      have heq : univ \ (u :: s.visited).toFinset = (univ \ s.visited.toFinset).erase u := by
        ext x
        simp only [Finset.mem_sdiff, Finset.mem_erase, List.mem_toFinset, List.toFinset_cons,
          Finset.mem_insert]
        tauto
      rw [heq, Finset.card_erase_of_mem humemdiff]
      have hpos : 0 < (univ \ s.visited.toFinset).card := Finset.card_pos.mpr ⟨u, humemdiff⟩
      omega
    obtain ⟨hpre2, hnbfin⟩ := goCycleG_invariant adj univ P hclosed hPstep fuel ih
      (path ++ [u]) u (List.getLast?_concat _) hchain hP (nb adj u)
      { s with visited := u :: s.visited } hfuel1 (fun n hn => hn) hpre1
    simp only [dfsCycleG]
    set s2 := goCycleG (dfsCycleG adj fuel) (path ++ [u]) (nb adj u)
      { s with visited := u :: s.visited } with hs2
    have hu2 : u ∈ s2.visited := (goCycleG_extends (dfsCycleG adj fuel)
      (fun n p s => dfsCycleG_extends adj fuel n p s) _ _ _).visited_sub
      (List.mem_cons_self _ _)
    have hufin2 : u ∉ s2.finished := hpre2.grayInv.gray_not_finished u humemp
    refine ⟨⟨⟨?_, ?_, ?_⟩, ?_, ?_⟩, ?_⟩
    · intro v
      constructor
      · intro hvm
        rcases (hpre2.grayInv.mem_visited v).mp hvm with h | h
        · exact Or.inl (List.mem_append_left _ h)
        · rcases List.mem_append.mp h with h2 | h2
          · exact Or.inr h2
          · exact Or.inl (List.mem_append_right _ h2)
      · intro hvm
        rcases hvm with h | h
        · rcases List.mem_append.mp h with h2 | h2
          · exact (hpre2.grayInv.mem_visited v).mpr (Or.inl h2)
          · rw [List.mem_singleton.mp h2]
            exact hu2
        · exact (hpre2.grayInv.mem_visited v).mpr (Or.inr (List.mem_append_left _ h))
    · rw [List.nodup_append]
      exact ⟨hpre2.grayInv.nodup_finished, List.nodup_singleton u,
        fun a ha hb => by rw [List.mem_singleton.mp hb] at ha; exact hufin2 ha⟩
    · intro v hvp hvfin
      rcases List.mem_append.mp hvfin with h | h
      · exact hpre2.grayInv.gray_not_finished v (List.mem_append_left _ hvp) h
      · rw [List.mem_singleton.mp h] at hvp
        exact hupath hvp
    · intro hcyc
      exact TopoOK.snoc (hpre2.topo hcyc) (fun w hw => hnbfin hcyc w hw)
    · intro c hc
      exact hpre2.cyc c hc
    · exact List.mem_append_right _ (List.mem_singleton_self u)

theorem detectCyclesG_invariant (nodes : List WorkflowNode) (edges : List WorkflowEdge)
    (P : String → Prop)
    (hPstep : ∀ v w, P v → Step (buildAdjacency nodes edges) v w → P w)
    (hProots : ∀ n ∈ nodes, P n.id) :
    DfsPre (buildAdjacency nodes edges) P (detectCyclesG nodes edges) [] ∧
    (∀ n ∈ nodes, n.id ∈ (detectCyclesG nodes edges).visited) := by
  have hclosed := step_mem_univIds nodes edges
  have key : ∀ (rs : List WorkflowNode) (s : GSt),
      (∀ n ∈ rs, P n.id) →
      (∀ n ∈ rs, n.id ∈ univIds nodes edges) →
      (univIds nodes edges \ s.visited.toFinset).card < fuelBound nodes edges →
      DfsPre (buildAdjacency nodes edges) P s [] →
      DfsPre (buildAdjacency nodes edges) P
        (rs.foldl (fun s n => if n.id ∈ s.visited then s
          else dfsCycleG (buildAdjacency nodes edges) (fuelBound nodes edges) n.id [] s) s) [] ∧
      (∀ n ∈ rs, n.id ∈ (rs.foldl (fun s n => if n.id ∈ s.visited then s
          else dfsCycleG (buildAdjacency nodes edges) (fuelBound nodes edges) n.id [] s) s).visited) ∧
      GExtends s (rs.foldl (fun s n => if n.id ∈ s.visited then s
          else dfsCycleG (buildAdjacency nodes edges) (fuelBound nodes edges) n.id [] s) s) := by
    intro rs
    induction rs with
    | nil =>
      intro s _ _ _ hpre
      exact ⟨hpre, fun n hn => absurd hn (List.not_mem_nil n), GExtends.rfl s⟩
    | cons r t ih =>
      intro s hPr hUr hfuel hpre
      simp only [List.foldl_cons]
      by_cases hv : r.id ∈ s.visited
      · simp only [if_pos hv]
        obtain ⟨hpreF, hmemF, hextF⟩ := ih s (fun n hn => hPr n (List.mem_cons_of_mem r hn))
          (fun n hn => hUr n (List.mem_cons_of_mem r hn)) hfuel hpre
        refine ⟨hpreF, fun n hn => ?_, hextF⟩
        rcases List.mem_cons.mp hn with h | h
        · rw [h]; exact hextF.visited_sub hv
        · exact hmemF n h
      · simp only [if_neg hv]
        have hchain : List.Chain' (Step (buildAdjacency nodes edges)) ([] ++ [r.id]) := by
          simp
        have hPm : ∀ v ∈ ([] : List String) ++ [r.id], P v := by
          intro v hvm
          have hvr : v = r.id := by simpa using hvm
          rw [hvr]
          exact hPr r (List.mem_cons_self r t)
        obtain ⟨hpre', hrfin⟩ := dfsCycleG_invariant (buildAdjacency nodes edges)
          (univIds nodes edges) P hclosed hPstep (fuelBound nodes edges) r.id [] s
          hfuel hv (hUr r (List.mem_cons_self r t)) hchain hPm hpre
        have hrvis : r.id ∈ (dfsCycleG (buildAdjacency nodes edges)
            (fuelBound nodes edges) r.id [] s).visited :=
          (hpre'.grayInv.mem_visited r.id).mpr (Or.inl hrfin)
        have hfuel' : (univIds nodes edges \ (dfsCycleG (buildAdjacency nodes edges)
            (fuelBound nodes edges) r.id [] s).visited.toFinset).card < fuelBound nodes edges := by
          have hsub := (dfsCycleG_extends (buildAdjacency nodes edges)
            (fuelBound nodes edges) r.id [] s).visited_sub
          refine lt_of_le_of_lt (Finset.card_le_card ?_) hfuel
          intro x hx
          rw [Finset.mem_sdiff] at hx ⊢
          refine ⟨hx.1, fun hmem => hx.2 ?_⟩
          rw [List.mem_toFinset] at hmem ⊢
          exact hsub hmem
        obtain ⟨hpreF, hmemF, hextF⟩ := ih _ (fun n hn => hPr n (List.mem_cons_of_mem r hn))
          (fun n hn => hUr n (List.mem_cons_of_mem r hn)) hfuel' hpre'
        refine ⟨hpreF, fun n hn => ?_, GExtends.trans (dfsCycleG_extends _ _ _ _ _) hextF⟩
        rcases List.mem_cons.mp hn with h | h
        · rw [h]; exact hextF.visited_sub hrvis
        · exact hmemF n h
  have hU : ∀ n ∈ nodes, n.id ∈ univIds nodes edges := by
    intro n hn
    unfold univIds
    rw [List.mem_toFinset, List.mem_append]
    exact Or.inl (List.mem_map_of_mem _ hn)
  have hfuel0 : (univIds nodes edges \ (([] : List String)).toFinset).card <
      fuelBound nodes edges := by
    simp only [List.toFinset_nil, Finset.sdiff_empty]
    have h1 := List.toFinset_card_le (nodes.map (fun n => n.id) ++ edges.map (fun e => e.target))
    unfold univIds fuelBound
    simp only [List.length_append, List.length_map] at h1
    omega
  have hpre0 : DfsPre (buildAdjacency nodes edges) P ⟨[], [], []⟩ [] := by
    refine ⟨⟨?_, List.nodup_nil, ?_⟩, ?_, ?_⟩
    · intro v; simp
    · intro v hv; simp at hv
    · intro _; exact TopoOK.nil
    · intro c hc; simp at hc
  obtain ⟨h1, h2, _⟩ := key nodes ⟨[], [], []⟩ hProots hU hfuel0 hpre0
  exact ⟨h1, h2⟩

/-- Completeness of `detectCycles`: any directed cycle among the graph's
nodes along enabled edges is detected. -/
theorem detectCycles_complete (nodes : List WorkflowNode) (edges : List WorkflowEdge)
    (c : List String) (hc : isCycleB nodes edges c = true) :
    detectCycles nodes edges ≠ [] := by
  intro hnil
  rw [detectCyclesG_cycles] at hnil
  obtain ⟨hpre, hroots⟩ := detectCyclesG_invariant nodes edges (fun _ => True)
    (fun _ _ _ _ => trivial) (fun _ _ => trivial)
  obtain ⟨hclosedC, hmemN⟩ := isCycleB_closed nodes edges c hc
  have hfin : ∀ v ∈ c, v ∈ (detectCyclesG nodes edges).finished := by
    intro v hv
    obtain ⟨n, hn, hid⟩ := List.mem_map.mp (hmemN v hv)
    have hvis := hroots n hn
    rcases (hpre.grayInv.mem_visited n.id).mp hvis with h | h
    · rw [← hid]; exact h
    · exact absurd h (List.not_mem_nil _)
  exact topoOK_no_cycle _ _ hpre.grayInv.nodup_finished (hpre.topo hnil) c hclosedC hfin

/-- Soundness of `detectCycles` on well-formed graphs: a reported cycle
implies a genuine cycle among the graph's nodes. -/
theorem detectCycles_sound (nodes : List WorkflowNode) (edges : List WorkflowEdge)
    (hwf : ∀ e ∈ edges, e.source ∈ nodes.map (fun n => n.id) ∧
      e.target ∈ nodes.map (fun n => n.id))
    (hne : detectCycles nodes edges ≠ []) :
    ∃ c, isCycleB nodes edges c = true := by
  rw [detectCyclesG_cycles] at hne
  have hPstep : ∀ v w, v ∈ nodes.map (fun n => n.id) →
      Step (buildAdjacency nodes edges) v w → w ∈ nodes.map (fun n => n.id) := by
    intro v w _ hs
    unfold Step at hs
    rw [nb_buildAdjacency] at hs
    obtain ⟨e, he, htgt⟩ := List.mem_map.mp hs
    rw [← htgt]
    exact (hwf e (List.mem_of_mem_filter he)).2
  obtain ⟨hpre, _⟩ := detectCyclesG_invariant nodes edges
    (fun v => v ∈ nodes.map (fun n => n.id)) hPstep
    (fun n hn => List.mem_map_of_mem _ hn)
  obtain ⟨c0, hc0⟩ := List.exists_mem_of_ne_nil _ hne
  obtain ⟨hclosed0, hP0⟩ := hpre.cyc c0 hc0
  refine ⟨c0.dropLast, closed_isCycleB nodes edges _ hclosed0 ?_⟩
  intro v hv
  exact hP0 v ((List.dropLast_sublist c0).subset hv)

/- ------- C1 ------- -/

/-- C1: for every graph definition containing a directed cycle among its
nodes along enabled edges, `validate` returns `valid = false` and its error
list contains at least one CIRCULAR_DEPENDENCY error. -/
theorem C1_validate_cycle_detected (w : WorkflowDefinition) (registry : Option (List String))
    (c : List String) (hc : isCycleB w.nodes w.edges c = true) :
    (validateWorkflow w registry).valid = false ∧
    ∃ err ∈ (validateWorkflow w registry).errors, err.code = "CIRCULAR_DEPENDENCY" := by
  have hdet := detectCycles_complete w.nodes w.edges c hc
  have hnodes : w.nodes ≠ [] := by
    cases c with
    | nil => simp [isCycleB] at hc
    | cons x xs =>
      obtain ⟨_, hm⟩ := isCycleB_closed w.nodes w.edges _ hc
      have hx := hm x (List.mem_cons_self _ _)
      intro hcon
      rw [hcon] at hx
      simp at hx
  have htopoerr : ∃ err ∈ (validateTopology w).1, err.code = "CIRCULAR_DEPENDENCY" := by
    unfold validateTopology
    rw [if_neg (by simpa [List.isEmpty_iff] using hnodes)]
    cases hcy : detectCycles w.nodes w.edges with
    | nil => exact absurd hcy hdet
    | cons c0 rest =>
      simp only [hcy]
      exact ⟨_, List.mem_map_of_mem _ (List.mem_cons_self c0 rest), rfl⟩
  obtain ⟨err, hmem, hcode⟩ := htopoerr
  have herrs : (validateWorkflow w registry).errors =
      (validateSchema w).1 ++ (validateNodes (registry.getD []) w.nodes).1 ++
      (validateEdges w.edges w.nodes).1 ++ (validateTopology w).1 ++
      (validateSettings w).1 := rfl
  have hmem' : err ∈ (validateWorkflow w registry).errors := by
    rw [herrs]
    exact List.mem_append_left _ (List.mem_append_right _ hmem)
  constructor
  · have hval : (validateWorkflow w registry).valid =
        (validateWorkflow w registry).errors.isEmpty := rfl
    have hne := List.ne_nil_of_mem hmem'
    cases hl : (validateWorkflow w registry).errors with
    | nil => exact absurd hl hne
    | cons a as => rw [hval, hl]; rfl
  · exact ⟨err, hmem', hcode⟩

theorem C1_witness :
    isCycleB cycleWorkflow.nodes cycleWorkflow.edges ["A", "B", "C"] = true ∧
    (validateWorkflow cycleWorkflow none).valid = false ∧
    ∃ err ∈ (validateWorkflow cycleWorkflow none).errors,
      err.code = "CIRCULAR_DEPENDENCY" :=
  ⟨by decide,
   (C1_validate_cycle_detected cycleWorkflow none ["A", "B", "C"] (by decide)).1,
   (C1_validate_cycle_detected cycleWorkflow none ["A", "B", "C"] (by decide)).2⟩

/- ------- C2 core: memoised depth DFS ------- -/

theorem visiting_cycle (adj : Adjacency) (visiting : List String) (u : String)
    (hchainR : List.Chain' (fun a b => Step adj b a) visiting)
    (hcall : ∀ p, visiting.head? = some p → Step adj p u)
    (hmem : u ∈ visiting) : ∃ c, ClosedCycleP adj c := by
  obtain ⟨A, B, hAB⟩ := List.append_of_mem hmem
  refine ⟨u :: A.reverse, ?_, ?_⟩
  · have hrev : List.Chain' (Step adj) visiting.reverse :=
      (List.chain'_reverse).mpr (by
        convert hchainR using 2)
    have hsfx : (u :: A.reverse) <:+ visiting.reverse := by
      refine ⟨B.reverse, ?_⟩
      rw [hAB]
      simp [List.reverse_append]
    exact hrev.suffix hsfx
  · cases A with
    | nil =>
      simp only [List.reverse_nil, List.getLast_singleton]
      refine hcall u ?_
      rw [hAB]
      rfl
    | cons a as =>
      have hgl : (u :: (a :: as).reverse).getLast (by simp) = a := by
        have h2 : (u :: (a :: as).reverse).getLast? = some a := by
          rw [show u :: (a :: as).reverse = (u :: as.reverse) ++ [a] by simp [List.reverse_cons]]
          exact List.getLast?_concat _
        rw [List.getLast?_eq_getLast (u :: (a :: as).reverse) (by simp)] at h2
        exact Option.some.inj h2
      rw [hgl]
      refine hcall a ?_
      rw [hAB]
      rfl

theorem GoodVal_pos (nodes : List WorkflowNode) (edges : List WorkflowEdge)
    (u : String) (d : Nat) (h : GoodVal nodes edges u d) : 1 ≤ d := by
  obtain ⟨⟨l, hl, _, hlen⟩, _⟩ := h
  have : ¬l.isEmpty := by
    unfold isChainB at hl
    simp only [Bool.and_eq_true] at hl
    simpa using hl.1.1
  cases l with
  | nil => simp at this
  | cons a t => simp [← hlen]

theorem isChainB_singleton (nodes : List WorkflowNode) (edges : List WorkflowEdge)
    (u : String) (hu : u ∈ nodes.map (fun n => n.id)) :
    isChainB nodes edges [u] = true := by
  have hm := (memNodes_iff nodes [u]).mpr (by simpa using hu)
  unfold isChainB
  simp [chainB, hm]

theorem isChainB_cons_elim (nodes : List WorkflowNode) (edges : List WorkflowEdge)
    (u w : String) (t : List String) (h : isChainB nodes edges (u :: w :: t) = true) :
    stepB edges u w = true ∧ isChainB nodes edges (w :: t) = true ∧
      u ∈ nodes.map (fun n => n.id) := by
  unfold isChainB at h ⊢
  simp only [Bool.and_eq_true] at h
  obtain ⟨⟨_, hch⟩, hm⟩ := h
  have hch' : (stepB edges u w && chainB edges (w :: t)) = true := hch
  simp only [Bool.and_eq_true] at hch'
  have hm' := (memNodes_iff nodes _).mp hm
  refine ⟨hch'.1, ?_, hm' u (List.mem_cons_self _ _)⟩
  simp only [Bool.and_eq_true]
  exact ⟨⟨by simp, hch'.2⟩,
    (memNodes_iff nodes _).mpr (fun v hv => hm' v (List.mem_cons_of_mem u hv))⟩

theorem isChainB_cons_intro (nodes : List WorkflowNode) (edges : List WorkflowEdge)
    (u w : String) (t : List String) (hu : u ∈ nodes.map (fun n => n.id))
    (hs : stepB edges u w = true) (h : isChainB nodes edges (w :: t) = true) :
    isChainB nodes edges (u :: w :: t) = true := by
  unfold isChainB at h ⊢
  simp only [Bool.and_eq_true] at h ⊢
  obtain ⟨⟨_, hch⟩, hm⟩ := h
  refine ⟨⟨by simp, ?_⟩, ?_⟩
  · show (stepB edges u w && chainB edges (w :: t)) = true
    simp [hs, hch]
  · refine (memNodes_iff nodes _).mpr ?_
    intro v hv
    rcases List.mem_cons.mp hv with h' | h'
    · rw [h']; exact hu
    · exact (memNodes_iff nodes _).mp hm v h'

theorem goDepth_invariant (nodes : List WorkflowNode) (edges : List WorkflowEdge)
    (fuel : Nat)
    (hrec : ∀ u s,
      ((nodes.map (fun n => n.id)).toFinset \ s.visiting.toFinset).card < fuel →
      u ∈ nodes.map (fun n => n.id) →
      List.Chain' (fun a b => Step (buildAdjacency nodes edges) b a) s.visiting →
      (∀ p, s.visiting.head? = some p → Step (buildAdjacency nodes edges) p u) →
      MemoOK nodes edges s.memo →
      GoodVal nodes edges u (dfsDepth (buildAdjacency nodes edges) fuel u s).1 ∧
      (dfsDepth (buildAdjacency nodes edges) fuel u s).2.visiting = s.visiting ∧
      MemoExt s.memo (dfsDepth (buildAdjacency nodes edges) fuel u s).2.memo ∧
      MemoOK nodes edges (dfsDepth (buildAdjacency nodes edges) fuel u s).2.memo ∧
      (∀ k dk, lookupA (dfsDepth (buildAdjacency nodes edges) fuel u s).2.memo k = some dk →
        lookupA s.memo k = some dk ∨ dk ≤ (dfsDepth (buildAdjacency nodes edges) fuel u s).1))
    (hstepN : ∀ v w, Step (buildAdjacency nodes edges) v w → w ∈ nodes.map (fun n => n.id))
    (u : String) :
    ∀ ns m0 s,
      ((nodes.map (fun n => n.id)).toFinset \ s.visiting.toFinset).card < fuel →
      (∀ n ∈ ns, Step (buildAdjacency nodes edges) u n) →
      s.visiting.head? = some u →
      List.Chain' (fun a b => Step (buildAdjacency nodes edges) b a) s.visiting →
      MemoOK nodes edges s.memo →
      (goDepth (dfsDepth (buildAdjacency nodes edges) fuel) ns m0 s).2.visiting = s.visiting ∧
      MemoExt s.memo (goDepth (dfsDepth (buildAdjacency nodes edges) fuel) ns m0 s).2.memo ∧
      MemoOK nodes edges (goDepth (dfsDepth (buildAdjacency nodes edges) fuel) ns m0 s).2.memo ∧
      m0 ≤ (goDepth (dfsDepth (buildAdjacency nodes edges) fuel) ns m0 s).1 ∧
      (∀ n ∈ ns, ∃ dn, GoodVal nodes edges n dn ∧
        dn ≤ (goDepth (dfsDepth (buildAdjacency nodes edges) fuel) ns m0 s).1) ∧
      ((goDepth (dfsDepth (buildAdjacency nodes edges) fuel) ns m0 s).1 = m0 ∨
        ∃ n ∈ ns, GoodVal nodes edges n
          (goDepth (dfsDepth (buildAdjacency nodes edges) fuel) ns m0 s).1) ∧
      (∀ k dk, lookupA (goDepth (dfsDepth (buildAdjacency nodes edges) fuel) ns m0 s).2.memo k =
          some dk → lookupA s.memo k = some dk ∨
          dk ≤ (goDepth (dfsDepth (buildAdjacency nodes edges) fuel) ns m0 s).1) := by
  intro ns
  induction ns with
  | nil =>
    intro m0 s _ _ _ _ hmok
    refine ⟨rfl, fun k d h => h, hmok, Nat.le_refl m0,
      fun n hn => absurd hn (List.not_mem_nil n), Or.inl rfl,
      fun k dk h => Or.inl h⟩
  | cons n t ih =>
    intro m0 s hfuel hns hhead hchainR hmok
    have hstepun : Step (buildAdjacency nodes edges) u n := hns n (List.mem_cons_self n t)
    have hnN : n ∈ nodes.map (fun n => n.id) := hstepN u n hstepun
    have hcalln : ∀ p, s.visiting.head? = some p →
        Step (buildAdjacency nodes edges) p n := by
      intro p hp
      rw [hhead] at hp
      rw [← Option.some.inj hp]
      exact hstepun
    obtain ⟨hgv, hvis, hext, hmok', hnew⟩ := hrec n s hfuel hnN hchainR hcalln hmok
    have hres : goDepth (dfsDepth (buildAdjacency nodes edges) fuel) (n :: t) m0 s =
        goDepth (dfsDepth (buildAdjacency nodes edges) fuel) t
          (max m0 (dfsDepth (buildAdjacency nodes edges) fuel n s).1)
          (dfsDepth (buildAdjacency nodes edges) fuel n s).2 := rfl
    rw [hres]
    obtain ⟨ivis, iext, imok, ile, iall, iatt, inew⟩ := ih
      (max m0 (dfsDepth (buildAdjacency nodes edges) fuel n s).1)
      (dfsDepth (buildAdjacency nodes edges) fuel n s).2
      (by rw [hvis]; exact hfuel)
      (fun m hm => hns m (List.mem_cons_of_mem n hm))
      (by rw [hvis]; exact hhead)
      (by rw [hvis]; exact hchainR)
      hmok'
    have hd_le : (dfsDepth (buildAdjacency nodes edges) fuel n s).1 ≤
        (goDepth (dfsDepth (buildAdjacency nodes edges) fuel) t
          (max m0 (dfsDepth (buildAdjacency nodes edges) fuel n s).1)
          (dfsDepth (buildAdjacency nodes edges) fuel n s).2).1 :=
      le_trans (le_max_right _ _) ile
    refine ⟨by rw [ivis, hvis], fun k d h => iext k d (hext k d h), imok,
      le_trans (le_max_left _ _) ile, ?_, ?_, ?_⟩
    · intro m hm
      rcases List.mem_cons.mp hm with h | h
      · exact ⟨_, by rw [h]; exact hgv, hd_le⟩
      · exact iall m h
    · rcases iatt with h | h
      · rcases Nat.le_total m0 (dfsDepth (buildAdjacency nodes edges) fuel n s).1 with hle | hle
        · right
          refine ⟨n, List.mem_cons_self n t, ?_⟩
          rw [h, Nat.max_eq_right hle]
          exact hgv
        · left
          rw [h, Nat.max_eq_left hle]
      · right
        obtain ⟨m, hm, hgvm⟩ := h
        exact ⟨m, List.mem_cons_of_mem n hm, hgvm⟩
    · intro k dk h
      rcases inew k dk h with h2 | h2
      · rcases hnew k dk h2 with h3 | h3
        · exact Or.inl h3
        · exact Or.inr (le_trans h3 hd_le)
      · exact Or.inr h2

theorem closedCycle_tail_pred (adj : Adjacency) :
    ∀ l : List String, List.Chain' (Step adj) l → ∀ v ∈ l.tail, ∃ p, Step adj p v := by
  intro l
  induction l with
  | nil => intro _ v hv; simp at hv
  | cons a rest ih =>
    intro hch v hv
    simp only [List.tail_cons] at hv
    cases rest with
    | nil => simp at hv
    | cons b t =>
      obtain ⟨hab, hch'⟩ := List.chain'_cons.mp hch
      rcases List.mem_cons.mp hv with h | h
      · exact ⟨a, by rw [h]; exact hab⟩
      · exact ih hch' v h

theorem closedCycle_mem_nodes (nodes : List WorkflowNode) (edges : List WorkflowEdge)
    (c : List String) (hc : ClosedCycleP (buildAdjacency nodes edges) c)
    (hstepN : ∀ v w, Step (buildAdjacency nodes edges) v w → w ∈ nodes.map (fun n => n.id)) :
    ∀ v ∈ c, v ∈ nodes.map (fun n => n.id) := by
  cases c with
  | nil => exact absurd hc (by simp [ClosedCycleP])
  | cons x xs =>
    obtain ⟨hch, hcl⟩ := hc
    intro v hv
    rcases List.mem_cons.mp hv with h | h
    · exact hstepN _ v (by rw [h]; exact hcl)
    · obtain ⟨p, hp⟩ := closedCycle_tail_pred _ (x :: xs) hch v (by simpa using h)
      exact hstepN p v hp

theorem acyclic_of_no_cycleB (nodes : List WorkflowNode) (edges : List WorkflowEdge)
    (hstepN : ∀ v w, Step (buildAdjacency nodes edges) v w → w ∈ nodes.map (fun n => n.id))
    (hacycB : ∀ c, isCycleB nodes edges c = false) :
    ∀ c, ¬ ClosedCycleP (buildAdjacency nodes edges) c := by
  intro c hc
  have := closed_isCycleB nodes edges c hc (closedCycle_mem_nodes nodes edges c hc hstepN)
  rw [hacycB c] at this
  exact Bool.false_ne_true this

theorem dfsDepth_invariant (nodes : List WorkflowNode) (edges : List WorkflowEdge)
    (hstepN : ∀ v w, Step (buildAdjacency nodes edges) v w → w ∈ nodes.map (fun n => n.id))
    (hacyc : ∀ c, ¬ ClosedCycleP (buildAdjacency nodes edges) c) :
    ∀ fuel u s,
      ((nodes.map (fun n => n.id)).toFinset \ s.visiting.toFinset).card < fuel →
      u ∈ nodes.map (fun n => n.id) →
      List.Chain' (fun a b => Step (buildAdjacency nodes edges) b a) s.visiting →
      (∀ p, s.visiting.head? = some p → Step (buildAdjacency nodes edges) p u) →
      MemoOK nodes edges s.memo →
      GoodVal nodes edges u (dfsDepth (buildAdjacency nodes edges) fuel u s).1 ∧
      (dfsDepth (buildAdjacency nodes edges) fuel u s).2.visiting = s.visiting ∧
      MemoExt s.memo (dfsDepth (buildAdjacency nodes edges) fuel u s).2.memo ∧
      MemoOK nodes edges (dfsDepth (buildAdjacency nodes edges) fuel u s).2.memo ∧
      (∀ k dk, lookupA (dfsDepth (buildAdjacency nodes edges) fuel u s).2.memo k = some dk →
        lookupA s.memo k = some dk ∨ dk ≤ (dfsDepth (buildAdjacency nodes edges) fuel u s).1) ∧
      lookupA (dfsDepth (buildAdjacency nodes edges) fuel u s).2.memo u =
        some (dfsDepth (buildAdjacency nodes edges) fuel u s).1 := by
  intro fuel
  induction fuel with
  | zero => intro u s hfuel _ _ _ _; exact absurd hfuel (Nat.not_lt_zero _)
  | succ fuel ih =>
    intro u s hfuel huN hchainR hcall hmok
    rcases hmemo : lookupA s.memo u with _ | d
    · by_cases hvis : u ∈ s.visiting
      · obtain ⟨c, hc⟩ := visiting_cycle (buildAdjacency nodes edges) s.visiting u
          hchainR hcall hvis
        exact absurd hc (hacyc c)
      · have humemdiff : u ∈ (nodes.map (fun n => n.id)).toFinset \ s.visiting.toFinset :=
          Finset.mem_sdiff.mpr ⟨List.mem_toFinset.mpr huN,
            by rw [List.mem_toFinset]; exact hvis⟩
        have hfuelgo :
            ((nodes.map (fun n => n.id)).toFinset \ (u :: s.visiting).toFinset).card < fuel := by
          have heq : (nodes.map (fun n => n.id)).toFinset \ (u :: s.visiting).toFinset =
              ((nodes.map (fun n => n.id)).toFinset \ s.visiting.toFinset).erase u := by
            ext x
            simp only [Finset.mem_sdiff, Finset.mem_erase, List.mem_toFinset,
              List.toFinset_cons, Finset.mem_insert]
            tauto
          rw [heq, Finset.card_erase_of_mem humemdiff]
          have hpos : 0 < ((nodes.map (fun n => n.id)).toFinset \ s.visiting.toFinset).card :=
            Finset.card_pos.mpr ⟨u, humemdiff⟩
          omega
        have hchainR1 : List.Chain' (fun a b => Step (buildAdjacency nodes edges) b a)
            (u :: s.visiting) := by
          cases hv : s.visiting with
          | nil => simp
          | cons p rest =>
            rw [← hv]
            refine List.chain'_cons'.mpr ⟨?_, hchainR⟩
            intro q hq
            exact hcall q (by rw [hv] at hq ⊢; simpa using hq)
        by_cases hns : nb (buildAdjacency nodes edges) u = []
        · have hres : dfsDepth (buildAdjacency nodes edges) (fuel + 1) u s =
              (1, { memo := setA s.memo u 1, visiting := (u :: s.visiting).erase u }) := by
            simp [dfsDepth, hmemo, hvis, hns]
          rw [hres]
          have hgv1 : GoodVal nodes edges u 1 := by
            constructor
            · exact ⟨[u], isChainB_singleton nodes edges u huN, rfl, rfl⟩
            · intro l hl hhd
              cases l with
              | nil => simp at hhd
              | cons a t =>
                have ha : a = u := by simpa using hhd
                cases t with
                | nil => simp
                | cons w t' =>
                  subst ha
                  obtain ⟨hs, _, _⟩ := isChainB_cons_elim nodes edges a w t' hl
                  have hw : Step (buildAdjacency nodes edges) a w :=
                    (step_iff_stepB nodes edges a w).mpr hs
                  unfold Step at hw
                  rw [hns] at hw
                  simp at hw
          refine ⟨hgv1, List.erase_cons_head u s.visiting, ?_, ?_, ?_, ?_⟩
          · intro k d h
            rw [lookupA_setA]
            by_cases hk : k = u
            · rw [hk] at h; rw [h] at hmemo; exact absurd hmemo (by simp)
            · rw [if_neg hk]; exact h
          · intro k d h
            rw [lookupA_setA] at h
            by_cases hk : k = u
            · rw [if_pos hk] at h
              rw [hk, ← Option.some.inj h]
              exact hgv1
            · rw [if_neg hk] at h
              exact hmok k d h
          · intro k dk h
            rw [lookupA_setA] at h
            by_cases hk : k = u
            · rw [if_pos hk] at h
              exact Or.inr (Nat.le_of_eq (Option.some.inj h).symm)
            · rw [if_neg hk] at h
              exact Or.inl h
          · rw [lookupA_setA, if_pos rfl]
        · have hrec : ∀ u' s',
              ((nodes.map (fun n => n.id)).toFinset \ s'.visiting.toFinset).card < fuel →
              u' ∈ nodes.map (fun n => n.id) →
              List.Chain' (fun a b => Step (buildAdjacency nodes edges) b a) s'.visiting →
              (∀ p, s'.visiting.head? = some p → Step (buildAdjacency nodes edges) p u') →
              MemoOK nodes edges s'.memo →
              GoodVal nodes edges u' (dfsDepth (buildAdjacency nodes edges) fuel u' s').1 ∧
              (dfsDepth (buildAdjacency nodes edges) fuel u' s').2.visiting = s'.visiting ∧
              MemoExt s'.memo (dfsDepth (buildAdjacency nodes edges) fuel u' s').2.memo ∧
              MemoOK nodes edges (dfsDepth (buildAdjacency nodes edges) fuel u' s').2.memo ∧
              (∀ k dk, lookupA (dfsDepth (buildAdjacency nodes edges) fuel u' s').2.memo k =
                some dk → lookupA s'.memo k = some dk ∨
                dk ≤ (dfsDepth (buildAdjacency nodes edges) fuel u' s').1) := by
            intro u' s' h1 h2 h3 h4 h5
            obtain ⟨c1, c2, c3, c4, c5, _⟩ := ih u' s' h1 h2 h3 h4 h5
            exact ⟨c1, c2, c3, c4, c5⟩
          obtain ⟨gvis, gext, gmok, gle, gall, gatt, gnew⟩ :=
            goDepth_invariant nodes edges fuel hrec hstepN u
              (nb (buildAdjacency nodes edges) u) 0 ⟨s.memo, u :: s.visiting⟩
              hfuelgo (fun n hn => hn) rfl hchainR1 hmok
          have hres : dfsDepth (buildAdjacency nodes edges) (fuel + 1) u s =
              (1 + (goDepth (dfsDepth (buildAdjacency nodes edges) fuel)
                  (nb (buildAdjacency nodes edges) u) 0 ⟨s.memo, u :: s.visiting⟩).1,
               { memo := setA (goDepth (dfsDepth (buildAdjacency nodes edges) fuel)
                    (nb (buildAdjacency nodes edges) u) 0 ⟨s.memo, u :: s.visiting⟩).2.memo u
                    (1 + (goDepth (dfsDepth (buildAdjacency nodes edges) fuel)
                      (nb (buildAdjacency nodes edges) u) 0 ⟨s.memo, u :: s.visiting⟩).1),
                 visiting := (goDepth (dfsDepth (buildAdjacency nodes edges) fuel)
                    (nb (buildAdjacency nodes edges) u) 0
                    ⟨s.memo, u :: s.visiting⟩).2.visiting.erase u }) := by
            have hne : ((nb (buildAdjacency nodes edges) u).isEmpty) = false := by
              cases h : nb (buildAdjacency nodes edges) u with
              | nil => exact absurd h hns
              | cons a t => rfl
            simp [dfsDepth, hmemo, hvis, hne]
          rw [hres]
          set G := goDepth (dfsDepth (buildAdjacency nodes edges) fuel)
            (nb (buildAdjacency nodes edges) u) 0 ⟨s.memo, u :: s.visiting⟩ with hG
          have hgvu : GoodVal nodes edges u (1 + G.1) := by
            constructor
            · rcases gatt with h0 | ⟨n, hn, hgvn⟩
              · obtain ⟨n0, hn0⟩ := List.exists_mem_of_ne_nil _ hns
                obtain ⟨dn, hgvn, hdn⟩ := gall n0 hn0
                have := GoodVal_pos nodes edges n0 dn hgvn
                omega
              · obtain ⟨⟨l, hl, hhd, hlen⟩, _⟩ := hgvn
                cases l with
                | nil => simp at hhd
                | cons a t =>
                  have ha : a = n := by simpa using hhd
                  subst ha
                  refine ⟨u :: a :: t, ?_, rfl, by simp at hlen ⊢; omega⟩
                  exact isChainB_cons_intro nodes edges u a t huN
                    ((step_iff_stepB nodes edges u a).mp hn) hl
            · intro l hl hhd
              cases l with
              | nil => simp at hhd
              | cons a t =>
                have ha : a = u := by simpa using hhd
                subst ha
                cases t with
                | nil => simp
                | cons w t' =>
                  obtain ⟨hs, hl', _⟩ := isChainB_cons_elim nodes edges a w t' hl
                  have hw : Step (buildAdjacency nodes edges) a w :=
                    (step_iff_stepB nodes edges a w).mpr hs
                  obtain ⟨dw, hgvw, hdw⟩ := gall w hw
                  have hb := hgvw.2 (w :: t') hl' rfl
                  simp only [List.length_cons] at hb ⊢
                  omega
          refine ⟨hgvu, by rw [gvis]; exact List.erase_cons_head u s.visiting, ?_, ?_, ?_, ?_⟩
          · intro k d h
            rw [lookupA_setA]
            by_cases hk : k = u
            · rw [hk] at h; rw [h] at hmemo; exact absurd hmemo (by simp)
            · rw [if_neg hk]
              exact gext k d h
          · intro k d h
            rw [lookupA_setA] at h
            by_cases hk : k = u
            · rw [if_pos hk] at h
              rw [hk, ← Option.some.inj h]
              exact hgvu
            · rw [if_neg hk] at h
              exact gmok k d h
          · intro k dk h
            rw [lookupA_setA] at h
            by_cases hk : k = u
            · rw [if_pos hk] at h
              exact Or.inr (Nat.le_of_eq (Option.some.inj h).symm)
            · rw [if_neg hk] at h
              rcases gnew k dk h with h2 | h2
              · exact Or.inl h2
              · exact Or.inr (by omega)
          · rw [lookupA_setA, if_pos rfl]
    · have hres : dfsDepth (buildAdjacency nodes edges) (fuel + 1) u s = (d, s) := by
        simp [dfsDepth, hmemo]
      rw [hres]
      exact ⟨hmok u d hmemo, rfl, fun k d h => h, hmok, fun k dk h => Or.inl h, hmemo⟩

theorem calcMaxDepth_fold (nodes : List WorkflowNode) (edges : List WorkflowEdge)
    (hstepN : ∀ v w, Step (buildAdjacency nodes edges) v w → w ∈ nodes.map (fun n => n.id))
    (hacyc : ∀ c, ¬ ClosedCycleP (buildAdjacency nodes edges) c) :
    ∀ (rs : List WorkflowNode) (acc : Nat × DepthSt),
      (∀ n ∈ rs, n.id ∈ nodes.map (fun m => m.id)) →
      acc.2.visiting = [] →
      MemoOK nodes edges acc.2.memo →
      (∀ k dk, lookupA acc.2.memo k = some dk → dk ≤ acc.1) →
      (acc.1 = 0 ∨ ∃ v, GoodVal nodes edges v acc.1) →
      (rs.foldl (fun (acc : Nat × DepthSt) n =>
          if (lookupA acc.2.memo n.id).isSome then acc
          else
            let (d, s') := dfsDepth (buildAdjacency nodes edges)
              (fuelBound nodes edges) n.id acc.2
            (max acc.1 d, s')) acc).2.visiting = [] ∧
      MemoOK nodes edges (rs.foldl (fun (acc : Nat × DepthSt) n =>
          if (lookupA acc.2.memo n.id).isSome then acc
          else
            let (d, s') := dfsDepth (buildAdjacency nodes edges)
              (fuelBound nodes edges) n.id acc.2
            (max acc.1 d, s')) acc).2.memo ∧
      (∀ k dk, lookupA (rs.foldl (fun (acc : Nat × DepthSt) n =>
          if (lookupA acc.2.memo n.id).isSome then acc
          else
            let (d, s') := dfsDepth (buildAdjacency nodes edges)
              (fuelBound nodes edges) n.id acc.2
            (max acc.1 d, s')) acc).2.memo k = some dk →
        dk ≤ (rs.foldl (fun (acc : Nat × DepthSt) n =>
          if (lookupA acc.2.memo n.id).isSome then acc
          else
            let (d, s') := dfsDepth (buildAdjacency nodes edges)
              (fuelBound nodes edges) n.id acc.2
            (max acc.1 d, s')) acc).1) ∧
      (∀ n ∈ rs, ∃ dn, lookupA (rs.foldl (fun (acc : Nat × DepthSt) n =>
          if (lookupA acc.2.memo n.id).isSome then acc
          else
            let (d, s') := dfsDepth (buildAdjacency nodes edges)
              (fuelBound nodes edges) n.id acc.2
            (max acc.1 d, s')) acc).2.memo n.id = some dn) ∧
      acc.1 ≤ (rs.foldl (fun (acc : Nat × DepthSt) n =>
          if (lookupA acc.2.memo n.id).isSome then acc
          else
            let (d, s') := dfsDepth (buildAdjacency nodes edges)
              (fuelBound nodes edges) n.id acc.2
            (max acc.1 d, s')) acc).1 ∧
      ((rs.foldl (fun (acc : Nat × DepthSt) n =>
          if (lookupA acc.2.memo n.id).isSome then acc
          else
            let (d, s') := dfsDepth (buildAdjacency nodes edges)
              (fuelBound nodes edges) n.id acc.2
            (max acc.1 d, s')) acc).1 = acc.1 ∨
        ∃ v, GoodVal nodes edges v (rs.foldl (fun (acc : Nat × DepthSt) n =>
          if (lookupA acc.2.memo n.id).isSome then acc
          else
            let (d, s') := dfsDepth (buildAdjacency nodes edges)
              (fuelBound nodes edges) n.id acc.2
            (max acc.1 d, s')) acc).1) ∧
      MemoExt acc.2.memo (rs.foldl (fun (acc : Nat × DepthSt) n =>
          if (lookupA acc.2.memo n.id).isSome then acc
          else
            let (d, s') := dfsDepth (buildAdjacency nodes edges)
              (fuelBound nodes edges) n.id acc.2
            (max acc.1 d, s')) acc).2.memo := by
  intro rs
  induction rs with
  | nil =>
    intro acc _ h2 h3 h4 h5
    exact ⟨h2, h3, h4, by simp, Nat.le_refl _, Or.inl rfl, fun k d h => h⟩
  | cons n t ih =>
    intro acc hmemN hvis hmok hbnd hatt
    rw [List.foldl_cons]
    by_cases hmem : (lookupA acc.2.memo n.id).isSome
    · have hf : (if (lookupA acc.2.memo n.id).isSome then acc
          else
            let (d, s') := dfsDepth (buildAdjacency nodes edges)
              (fuelBound nodes edges) n.id acc.2
            (max acc.1 d, s')) = acc := if_pos hmem
      rw [hf]
      obtain ⟨c1, c2, c3, c4, c5, c6, c7⟩ := ih acc
        (fun m hm => hmemN m (List.mem_cons_of_mem n hm)) hvis hmok hbnd hatt
      refine ⟨c1, c2, c3, ?_, c5, ?_, c7⟩
      · intro m hm
        rcases List.mem_cons.mp hm with h | h
        · obtain ⟨dn, hdn⟩ := Option.isSome_iff_exists.mp hmem
          exact ⟨dn, by rw [h]; exact c7 _ _ hdn⟩
        · exact c4 m h
      · rcases c6 with h | h
        · exact Or.inl h
        · exact Or.inr h
    · have hf : (if (lookupA acc.2.memo n.id).isSome then acc
          else
            let (d, s') := dfsDepth (buildAdjacency nodes edges)
              (fuelBound nodes edges) n.id acc.2
            (max acc.1 d, s')) =
          (max acc.1 (dfsDepth (buildAdjacency nodes edges)
              (fuelBound nodes edges) n.id acc.2).1,
            (dfsDepth (buildAdjacency nodes edges)
              (fuelBound nodes edges) n.id acc.2).2) := by
        rw [if_neg hmem]
      rw [hf]
      have hfuel : ((nodes.map (fun m => m.id)).toFinset \ acc.2.visiting.toFinset).card <
          fuelBound nodes edges := by
        rw [hvis]
        simp only [List.toFinset_nil, Finset.sdiff_empty]
        have h1 := List.toFinset_card_le (nodes.map (fun m => m.id))
        rw [List.length_map] at h1
        unfold fuelBound
        omega
      obtain ⟨dgv, dvis, dext, dmok, dnew, dself⟩ :=
        dfsDepth_invariant nodes edges hstepN hacyc (fuelBound nodes edges) n.id acc.2
          hfuel (hmemN n (List.mem_cons_self n t))
          (by rw [hvis]; exact List.chain'_nil)
          (fun p hp => by rw [hvis] at hp; simp at hp) hmok
      obtain ⟨c1, c2, c3, c4, c5, c6, c7⟩ := ih
        (max acc.1 (dfsDepth (buildAdjacency nodes edges)
            (fuelBound nodes edges) n.id acc.2).1,
          (dfsDepth (buildAdjacency nodes edges)
            (fuelBound nodes edges) n.id acc.2).2)
        (fun m hm => hmemN m (List.mem_cons_of_mem n hm))
        (by rw [dvis]; exact hvis) dmok
        (by
          intro k dk h
          rcases dnew k dk h with h2 | h2
          · exact le_trans (hbnd k dk h2) (le_max_left _ _)
          · exact le_trans h2 (le_max_right _ _))
        (by
          rcases Nat.le_total acc.1 (dfsDepth (buildAdjacency nodes edges)
              (fuelBound nodes edges) n.id acc.2).1 with hle | hle
          · right
            refine ⟨n.id, ?_⟩
            rw [Nat.max_eq_right hle]
            exact dgv
          · rcases hatt with h | h
            · left
              rw [Nat.max_eq_left hle, h]
            · right
              obtain ⟨v, hv⟩ := h
              refine ⟨v, ?_⟩
              rw [Nat.max_eq_left hle]
              exact hv)
      refine ⟨c1, c2, c3, ?_, le_trans (le_max_left _ _) c5, ?_, fun k d h => c7 k d (dext k d h)⟩
      · intro m hm
        rcases List.mem_cons.mp hm with h | h
        · exact ⟨_, by rw [h]; exact c7 _ _ dself⟩
        · exact c4 m h
      · rcases c6 with h | h
        · rcases Nat.le_total acc.1 (dfsDepth (buildAdjacency nodes edges)
              (fuelBound nodes edges) n.id acc.2).1 with hle | hle
          · right
            refine ⟨n.id, ?_⟩
            rw [h, Nat.max_eq_right hle]
            exact dgv
          · rcases hatt with h3 | h3
            · left
              rw [h, Nat.max_eq_left hle, h3]
            · right
              obtain ⟨v, hv⟩ := h3
              refine ⟨v, ?_⟩
              rw [h, Nat.max_eq_left hle]
              exact hv
        · exact Or.inr h

/-- C2: for every well-formed acyclic graph definition, the `maxDepth`
statistic returned by `validate` equals the number of nodes on the longest
directed chain along enabled edges (both an upper bound on every chain and
attained by some chain when the graph is nonempty); and for every graph in
which a cycle is detected, `maxDepth` equals 0. -/
theorem C2_max_depth_correct (w : WorkflowDefinition) (registry : Option (List String))
    (hwf : ∀ e ∈ w.edges, e.source ∈ w.nodes.map (fun n => n.id) ∧
      e.target ∈ w.nodes.map (fun n => n.id))
    (hacycB : ∀ c, isCycleB w.nodes w.edges c = false) :
    (validateWorkflow w registry).stats.maxDepth = calculateMaxDepth w ∧
    (∀ l, isChainB w.nodes w.edges l = true →
      l.length ≤ (validateWorkflow w registry).stats.maxDepth) ∧
    (w.nodes ≠ [] → ∃ l, isChainB w.nodes w.edges l = true ∧
      l.length = (validateWorkflow w registry).stats.maxDepth) ∧
    (∀ (w2 : WorkflowDefinition) (registry2 : Option (List String)),
      detectCycles w2.nodes w2.edges ≠ [] →
      (validateWorkflow w2 registry2).stats.maxDepth = 0) := by
  have hstats : ∀ (w' : WorkflowDefinition) (r : Option (List String)),
      (validateWorkflow w' r).stats.maxDepth = calculateMaxDepth w' :=
    fun w' r => rfl
  have hcycpart : ∀ (w2 : WorkflowDefinition) (registry2 : Option (List String)),
      detectCycles w2.nodes w2.edges ≠ [] →
      (validateWorkflow w2 registry2).stats.maxDepth = 0 := by
    intro w2 r2 hdet2
    rw [hstats w2 r2]
    have hdne : (detectCycles w2.nodes w2.edges).isEmpty = false := by
      cases h : detectCycles w2.nodes w2.edges with
      | nil => exact absurd h hdet2
      | cons a t => rfl
    unfold calculateMaxDepth
    simp [hdne]
  have hstepN : ∀ v x, Step (buildAdjacency w.nodes w.edges) v x →
      x ∈ w.nodes.map (fun n => n.id) := by
    intro v x hs
    unfold Step at hs
    rw [nb_buildAdjacency] at hs
    obtain ⟨e, he, htgt⟩ := List.mem_map.mp hs
    rw [← htgt]
    exact (hwf e (List.mem_of_mem_filter he)).2
  have hacycP : ∀ c, ¬ ClosedCycleP (buildAdjacency w.nodes w.edges) c :=
    acyclic_of_no_cycleB w.nodes w.edges hstepN hacycB
  have hdet : detectCycles w.nodes w.edges = [] := by
    by_cases h : detectCycles w.nodes w.edges = []
    · exact h
    · obtain ⟨c, hc⟩ := detectCycles_sound w.nodes w.edges hwf h
      rw [hacycB c] at hc
      exact absurd hc (by simp)
  have hdne : (detectCycles w.nodes w.edges).isEmpty = true := by rw [hdet]; rfl
  have hcmd : w.nodes.isEmpty = false →
      calculateMaxDepth w = (w.nodes.foldl (fun (acc : Nat × DepthSt) n =>
        if (lookupA acc.2.memo n.id).isSome then acc
        else
          let (d, s') := dfsDepth (buildAdjacency w.nodes w.edges)
            (fuelBound w.nodes w.edges) n.id acc.2
          (max acc.1 d, s')) (0, ⟨[], []⟩)).1 := by
    intro hne0
    unfold calculateMaxDepth
    rw [hne0, hdne]
    rfl
  have hfold := calcMaxDepth_fold w.nodes w.edges hstepN hacycP
    w.nodes (0, ⟨[], []⟩)
    (fun n hn => List.mem_map_of_mem _ hn) rfl
    (fun k d h => by simp [lookupA] at h)
    (fun k dk h => by simp [lookupA] at h)
    (Or.inl rfl)
  obtain ⟨c1, c2, c3, c4, c5, c6, c7⟩ := hfold
  refine ⟨hstats w registry, ?_, ?_, hcycpart⟩
  · intro l hl
    cases l with
    | nil => simp [isChainB] at hl
    | cons a t =>
      have hmema : a ∈ w.nodes.map (fun n => n.id) := by
        unfold isChainB at hl
        simp only [Bool.and_eq_true] at hl
        exact (memNodes_iff w.nodes _).mp hl.2 a (List.mem_cons_self a t)
      have hne0 : w.nodes.isEmpty = false := by
        cases hw : w.nodes with
        | nil => rw [hw] at hmema; simp at hmema
        | cons b bs => rfl
      rw [hstats w registry, hcmd hne0]
      obtain ⟨n, hn, hnid⟩ := List.mem_map.mp hmema
      obtain ⟨dn, hdn⟩ := c4 n hn
      rw [hnid] at hdn
      have hgv := c2 a dn hdn
      exact le_trans (hgv.2 (a :: t) hl rfl) (c3 a dn hdn)
  · intro hne
    have hne0 : w.nodes.isEmpty = false := by
      cases hw : w.nodes with
      | nil => exact absurd hw hne
      | cons b bs => rfl
    obtain ⟨n0, hn0⟩ := List.exists_mem_of_ne_nil w.nodes hne
    obtain ⟨dn, hdn⟩ := c4 n0 hn0
    have hgv := c2 n0.id dn hdn
    have h1 : 1 ≤ dn := GoodVal_pos w.nodes w.edges n0.id dn hgv
    have hle := c3 n0.id dn hdn
    rcases c6 with h | h
    · omega
    · obtain ⟨v, hv⟩ := h
      obtain ⟨⟨l, hla, hhd, hlen⟩, _⟩ := hv
      refine ⟨l, hla, ?_⟩
      rw [hstats w registry, hcmd hne0]
      exact hlen

/-- Witness for C2: on the linear chain A → B → C (acyclic, well-formed),
`validate` reports `maxDepth = 3`, attained by an actual 3-node chain. -/
theorem C2_witness :
    (validateWorkflow chainWorkflow none).stats.maxDepth = 3 ∧
    ∃ l, isChainB chainWorkflow.nodes chainWorkflow.edges l = true ∧
      l.length = (validateWorkflow chainWorkflow none).stats.maxDepth := by
  have hacycB : ∀ c, isCycleB chainWorkflow.nodes chainWorkflow.edges c = false := by
    intro c
    cases hb : isCycleB chainWorkflow.nodes chainWorkflow.edges c with
    | false => rfl
    | true =>
      exact absurd (by decide : detectCycles chainWorkflow.nodes chainWorkflow.edges = [])
        (detectCycles_complete chainWorkflow.nodes chainWorkflow.edges c hb)
  exact ⟨by decide,
    (C2_max_depth_correct chainWorkflow none (by decide) hacycB).2.2.1 (by decide)⟩
